import Mathlib

/-!
Verification development for the HomeDrive storage core
(`file_ops.py`, `maintenance.py`).

The Python code is shallowly embedded: filesystem state is an association
list from path strings to stored values, byte strings are `List Nat`,
machine-level concerns (threads, the coarse locks, OS race conditions)
are outside the model — every modelled operation is the body of the
corresponding Python function run atomically, which is exactly what the
per-subsystem locks are there to ensure.  SHA-256 is idealized as an
injective function of the hashed bytes, so equality of digests coincides
with equality of the hashed byte strings.
-/

namespace HomeDrive

/-! ## Finite maps keyed by strings (filesystem / trash / manifest state) -/

/-- First-match lookup in an association list. -/
def mfind {α : Type} (m : List (String × α)) (k : String) : Option α :=
  match m with
  | [] => none
  | (k', v) :: rest => if k' = k then some v else mfind rest k

/-- Bind key `k` to `v` (any previous binding is dropped). -/
def mset {α : Type} (m : List (String × α)) (k : String) (v : α) :
    List (String × α) :=
  (k, v) :: m.filter (fun e => e.1 ≠ k)

/-- Remove the binding of key `k`. -/
def mdel {α : Type} (m : List (String × α)) (k : String) :
    List (String × α) :=
  m.filter (fun e => e.1 ≠ k)

/-! ## PathGuard (`file_ops.is_safe_path` / `file_ops.get_full_path`)

Absolute filesystem paths are modelled as their component lists
(`/home/drive` is `["home", "drive"]`).  `Path.resolve()` on a
symlink-free tree is lexical normalization: `.` and empty components are
dropped and `..` removes the preceding component (at the root, `/..`
stays at the root).  `str(path)` is `pathStr`. -/

/-- Lexical canonicalization: collapse `.` and `..` the way
`pathlib.Path.resolve` does on a symlink-free filesystem. -/
def resolvePath (parts : List String) : List String :=
  parts.foldl
    (fun acc c =>
      if c = "." ∨ c = "" then acc
      else if c = ".." then acc.dropLast
      else acc ++ [c])
    []

/-- The string representation of an absolute path, as `str(Path(...))`
produces it on POSIX. -/
def pathStr (parts : List String) : String :=
  match parts with
  | [] => "/"
  | _ => parts.foldl (fun s c => s ++ "/" ++ c) ""

/-- `str.startswith` from Python, computed on the character lists. -/
def strStartsWith (s pre : String) : Bool :=
  pre.data.isPrefixOf s.data

/-- A user-supplied path: its components, and whether it was written
with a leading slash (`Path(base) / user` discards `base` then). -/
structure UserPath where
  parts : List String
  absolute : Bool
deriving DecidableEq

/-- `Path(BASE_DIR) / user_path` before canonicalization. -/
def joinedParts (base : List String) (u : UserPath) : List String :=
  if u.absolute then u.parts else base ++ u.parts

/-- Embedding of `file_ops.is_safe_path`: canonicalize
`base / user_path` and test whether its string representation literally
starts with the canonical base's string representation.  `base` is the
already-canonical storage root (`Path(BASE_DIR).resolve()`); an empty
user path (Python falsy) targets the base itself. -/
def is_safe_path (base : List String) (u : UserPath) : Bool :=
  let target :=
    if u.parts = [] ∧ u.absolute = false then base
    else resolvePath (joinedParts base u)
  strStartsWith (pathStr target) (pathStr base)

/-- A canonical path is inside the storage root exactly when its
component list extends the root's component list. -/
def withinRoot (base target : List String) : Bool :=
  base.isPrefixOf target

/-- Embedding of `file_ops.get_full_path`: the unresolved
`os.path.join(BASE_DIR, user_path)` (as components), guarded by
`is_safe_path`. -/
def get_full_path (base : List String) (u : UserPath) :
    Option (List String) :=
  if is_safe_path base u then
    some (if u.absolute then u.parts else base ++ u.parts)
  else none

/-! ## AtomicFileStore (`file_ops.create_folder` / `file_ops.save_uploaded_file`)

The guarded tree is a finite map from root-relative path strings to
entries.  The PathGuard layer is modelled separately above; the store
operations below work on already-validated relative paths, exactly as
the Python functions do after their `get_full_path` call. -/

def MAX_FILENAME_LENGTH : Nat := 255

def CHUNK_SIZE : Nat := 64 * 1024

def MIN_FREE_SPACE : Nat := 100 * 1024 * 1024

/-- The typed errors of the store (spec section 7 taxonomy; the Python
code raises `ValueError` with the corresponding message). -/
inductive Err where
  | invalidName
  | nameTooLong
  | alreadyExists
  | notFound
  | cannotSave
  | exhausted
deriving DecidableEq

deriving instance DecidableEq for Except

def allowedChar (c : Char) : Bool :=
  c.isAlphanum || c = '.' || c = '-' || c = '_'

/-- Modelled from the external `werkzeug.utils.secure_filename`
dependency, restricted to the behaviour the claims exercise: characters
outside ASCII alphanumerics, dot, dash and underscore are dropped, and
a name reduced to nothing is rejected by the callers. -/
def secure_filename (s : String) : String :=
  ⟨s.data.filter allowedChar⟩

/-- Index of the last occurrence of `c`, if any. -/
def lastIdxOf (cs : List Char) (c : Char) : Option Nat :=
  ((List.range cs.length).filter (fun i => cs.getD i ' ' = c)).getLast?

/-- `os.path.splitext`: split at the last dot, provided it lies after
the last path separator and the basename part before it is not made of
dots only. -/
def splitext (s : String) : String × String :=
  let cs := s.data
  let start := match lastIdxOf cs '/' with
    | none => 0
    | some j => j + 1
  match lastIdxOf cs '.' with
  | none => (s, "")
  | some d =>
    if start ≤ d ∧ ¬(((cs.drop start).take (d - start)).all (fun c => c = '.'))
    then (⟨cs.take d⟩, ⟨cs.drop d⟩)
    else (s, "")

/-- `os.path.join(dir, f)` for a possibly empty relative directory. -/
def joinRel (dir f : String) : String :=
  if dir = "" then f else dir ++ "/" ++ f

/-- A stored object: a regular file with its bytes, or a directory. -/
inductive Entry where
  | file (content : List Nat)
  | dir
deriving DecidableEq

abbrev Store := List (String × Entry)

/-- Embedding of `file_ops.create_folder`: sanitize, bound the length,
fail on an existing target, otherwise create the folder. -/
def create_folder (fs : Store) (user_path folder_name : String) :
    Store × Except Err String :=
  let name := secure_filename folder_name
  if name = "" then (fs, .error .invalidName)
  else if MAX_FILENAME_LENGTH < name.length then (fs, .error .nameTooLong)
  else
    match mfind fs (joinRel user_path name) with
    | some _ => (fs, .error .alreadyExists)
    | none => (mset fs (joinRel user_path name) .dir,
               (.ok (joinRel user_path name)))

/-- An upload byte stream: the 64 KiB chunks it delivers, and whether
the stream raises after delivering them (interrupted transfer). -/
structure UploadStream where
  chunks : List (List Nat)
  fails : Bool
deriving DecidableEq

/-- The `while os.path.exists(full_path)` collision loop of
`save_uploaded_file`: candidates `base_counter+ext` with an increasing
counter.  The loop always terminates on a finite store; the fuel only
makes the recursion structural. -/
def findDestGo (fs : Store) (user_path base ext : String) :
    Nat → Nat → Option String
  | _, 0 => none
  | counter, fuel + 1 =>
    let cand := joinRel user_path (base ++ "_" ++ toString counter ++ ext)
    match mfind fs cand with
    | some _ => findDestGo fs user_path base ext (counter + 1) fuel
    | none => some cand

/-- Final destination chosen by `save_uploaded_file`: the sanitized
name itself when free, else the first free numeric-suffix variant. -/
def findDest (fs : Store) (user_path fname : String) (fuel : Nat) :
    Option String :=
  let dest0 := joinRel user_path fname
  match mfind fs dest0 with
  | some _ =>
    findDestGo fs user_path (splitext fname).1 (splitext fname).2 1 fuel
  | none => some dest0

/-- Embedding of `file_ops.save_uploaded_file` (single-file branch,
`relative_path=None`): sanitize the name, resolve collisions, stream
the chunks into a sibling `.tmp` file, then either commit it with one
atomic `os.replace` or, if the stream raised, remove the temp file and
surface the error.  `free` is the partition's free-byte count
(`shutil.disk_usage`); it is threaded through to record that this code
path never consults it. -/
def saveUploadedFile (fs : Store) (free : Nat) (user_path fname : String)
    (s : UploadStream) (fuel : Nat) : Store × Except Err String :=
  let filename := secure_filename fname
  if filename = "" then (fs, .error .invalidName)
  else if MAX_FILENAME_LENGTH < filename.length then (fs, .error .nameTooLong)
  else
    match findDest fs user_path filename fuel with
    | none => (fs, .error .exhausted)
    | some dest =>
      let temp := dest ++ ".tmp"
      let written := mset fs temp (.file s.chunks.flatten)
      if s.fails then (mdel written temp, .error .cannotSave)
      else (mset (mdel written temp) dest (.file s.chunks.flatten), .ok dest)

/-- The store as seen after each successive chunk write of the upload
loop: the temp file grows, chunk by chunk. -/
def uploadWriteStates (fs : Store) (temp : String) (chunks : List (List Nat)) :
    List Store :=
  (List.range (chunks.length + 1)).map
    (fun k => mset fs temp (.file ((chunks.take k).flatten)))

/-- Embedding of `file_ops.has_space_for_upload`:
`usage['free'] >= file_size + MIN_FREE_SPACE`. -/
def has_space_for_upload (free file_size : Nat) : Bool :=
  decide (file_size + MIN_FREE_SPACE ≤ free)

/-! ## TrashManager (`file_ops.move_to_trash` / `restore_from_trash` /
`cleanup_old_trash` / `load_trash_manifest` / `get_trash_info`)

A trashed object is opaque: `shutil.move` relocates a file or a whole
directory tree wholesale, so the payload travels unchanged.  The
manifest is persisted by `save_trash_manifest` after every mutation;
the state carries it directly.  Restore's `os.makedirs(parent_dir)` is
invisible in a flat path-keyed map and `get_full_path` validation is
the separately modelled PathGuard layer. -/

def TRASH_MAX_AGE_DAYS : Nat := 30

/-- A stored object as the trash subsystem sees it: its bytes (for a
folder, the tree's total payload) and whether it is a directory. -/
structure TObj where
  bytes : List Nat
  isDir : Bool
deriving DecidableEq

/-- A manifest entry: `{"trash_name", "original_path", "original_name",
"deletion_time", "is_folder", "size"}`. -/
structure TrashItem where
  trash_name : String
  original_path : String
  original_name : String
  deletion_time : Nat
  is_folder : Bool
  size : Nat
deriving DecidableEq

/-- Trash subsystem state: the guarded tree outside `.trash`, the
objects under `.trash` keyed by trash name, and the manifest. -/
structure TrashState where
  files : List (String × TObj)
  trash : List (String × TObj)
  manifest : List TrashItem
deriving DecidableEq

/-- `os.path.basename`: the part after the last separator. -/
def basename (p : String) : String :=
  ⟨p.data.foldl (fun acc c => if c = '/' then [] else acc ++ [c]) []⟩

/-- Collision loop of `move_to_trash`:
`item_{timestamp}_{counter}_{original_name}` candidates. -/
def trashNameGo (tr : List (String × TObj)) (timestamp : Nat)
    (name : String) : Nat → Nat → Option String
  | _, 0 => none
  | counter, fuel + 1 =>
    let cand := "item_" ++ toString timestamp ++ "_" ++ toString counter ++
      "_" ++ name
    match mfind tr cand with
    | some _ => trashNameGo tr timestamp name (counter + 1) fuel
    | none => some cand

/-- Unique trash name chosen by `move_to_trash`:
`item_{timestamp}_{original_name}`, counter-disambiguated while taken. -/
def findTrashName (tr : List (String × TObj)) (timestamp : Nat)
    (name : String) (fuel : Nat) : Option String :=
  let cand := "item_" ++ toString timestamp ++ "_" ++ name
  match mfind tr cand with
  | some _ => trashNameGo tr timestamp name 1 fuel
  | none => some cand

/-- Embedding of `file_ops.move_to_trash`: validate existence, pick a
fresh trash name, move the object under `.trash`, append the manifest
entry (size and directory flag read back from the moved object), and
return the trash name. -/
def move_to_trash (st : TrashState) (user_path : String) (now fuel : Nat) :
    TrashState × Except Err String :=
  match mfind st.files user_path with
  | none => (st, .error .notFound)
  | some obj =>
    match findTrashName st.trash now (basename user_path) fuel with
    | none => (st, .error .exhausted)
    | some tn =>
      ({ files := mdel st.files user_path,
         trash := mset st.trash tn obj,
         manifest := st.manifest ++
           [{ trash_name := tn, original_path := user_path,
              original_name := basename user_path, deletion_time := now,
              is_folder := obj.isDir, size := obj.bytes.length }] },
       .ok tn)

/-- First manifest entry with the given trash name, with its index
(the `for i, trash_item in enumerate(...)` search of
`restore_from_trash`). -/
def findTrashItem : List TrashItem → String → Option (TrashItem × Nat)
  | [], _ => none
  | it :: rest, tn =>
    if it.trash_name = tn then some (it, 0)
    else (findTrashItem rest tn).map (fun q => (q.1, q.2 + 1))

/-- Collision loop of `restore_from_trash`:
`{base} (restored {counter}){ext}` candidates. -/
def restoredNameGo (files : List (String × TObj)) (base ext : String) :
    Nat → Nat → Option String
  | _, 0 => none
  | counter, fuel + 1 =>
    let cand := base ++ " (restored " ++ toString counter ++ ")" ++ ext
    match mfind files cand with
    | some _ => restoredNameGo files base ext (counter + 1) fuel
    | none => some cand

/-- Embedding of `file_ops.restore_from_trash`: look the name up in the
manifest (pruning a stale entry whose backing object is gone), move the
object back to its original path — disambiguated with a
`" (restored N)"` suffix on collision — and drop the manifest entry. -/
def restore_from_trash (st : TrashState) (tn : String) (fuel : Nat) :
    TrashState × Except Err String :=
  match findTrashItem st.manifest tn with
  | none => (st, .error .notFound)
  | some (item, i) =>
    match mfind st.trash tn with
    | none =>
      ({ files := st.files, trash := st.trash,
         manifest := st.manifest.eraseIdx i }, .error .notFound)
    | some obj =>
      match mfind st.files item.original_path with
      | none =>
        ({ files := mset st.files item.original_path obj,
           trash := mdel st.trash tn,
           manifest := st.manifest.eraseIdx i }, .ok item.original_path)
      | some _ =>
        match restoredNameGo st.files (splitext item.original_path).1
            (splitext item.original_path).2 1 fuel with
        | none => (st, .error .exhausted)
        | some rp =>
          ({ files := mset st.files rp obj,
             trash := mdel st.trash tn,
             manifest := st.manifest.eraseIdx i }, .ok rp)

/-- Whether a manifest entry has outlived `TRASH_MAX_AGE_DAYS`
(`age > max_age_seconds` with Python's wall-clock subtraction). -/
def trashExpired (now : Nat) (item : TrashItem) : Prop :=
  TRASH_MAX_AGE_DAYS * 24 * 60 * 60 < now - item.deletion_time

instance (now : Nat) (item : TrashItem) : Decidable (trashExpired now item) :=
  Nat.decLt _ _

/-- One iteration of the `cleanup_old_trash` loop over the manifest.
`canDelete` models whether the OS-level deletion of a backing object
succeeds or raises; the accumulator carries the trash objects, the
`items_to_keep` list, `deleted_count` and the `errors` list. -/
def cleanupStep (now : Nat) (canDelete : String → Bool)
    (acc : List (String × TObj) × List TrashItem × Nat × List String)
    (item : TrashItem) :
    List (String × TObj) × List TrashItem × Nat × List String :=
  let tr := acc.1
  let keep := acc.2.1
  let del := acc.2.2.1
  let errs := acc.2.2.2
  if trashExpired now item then
    match mfind tr item.trash_name with
    | some _ =>
      if canDelete item.trash_name then
        (mdel tr item.trash_name, keep, del + 1, errs)
      else (tr, keep ++ [item], del, errs ++ [item.trash_name])
    | none => (tr, keep, del + 1, errs)
  else (tr, keep ++ [item], del, errs)

/-- Embedding of `file_ops.cleanup_old_trash`: delete every expired
backing object (a missing object still counts as deleted), keep young
entries and entries whose deletion failed, and persist the kept list as
the new manifest.  Returns the new state, `deleted_count` and the
collected errors. -/
def cleanup_old_trash (st : TrashState) (now : Nat)
    (canDelete : String → Bool) :
    TrashState × Nat × List String :=
  let r := st.manifest.foldl (cleanupStep now canDelete) (st.trash, [], 0, [])
  ({ files := st.files, trash := r.1, manifest := r.2.1 }, r.2.2.1, r.2.2.2)

/-- The on-disk condition of the manifest file as `load_trash_manifest`
can encounter it. -/
inductive ManifestFile where
  | missing
  | corrupt
  | valid (items : List TrashItem)
deriving DecidableEq

/-- The `open` + `json.load` step: raises on an unreadable or
syntactically invalid file. -/
def readManifest : ManifestFile → Except String (List TrashItem)
  | .missing => .error "no such file"
  | .corrupt => .error "unreadable or invalid JSON"
  | .valid items => .ok items

/-- Embedding of `file_ops.load_trash_manifest`: a missing file yields
the empty manifest, and any read/parse failure is swallowed by the bare
`except`, also yielding the empty manifest. -/
def load_trash_manifest (mf : ManifestFile) : List TrashItem :=
  match mf with
  | .missing => []
  | other =>
    match readManifest other with
    | .ok items => items
    | .error _ => []

/-- Embedding of `file_ops.get_trash_info`: `(count, total_size)`;
a missing `.trash` directory short-circuits to zeros, otherwise the
loaded manifest is summarized. -/
def get_trash_info (trashDirExists : Bool) (mf : ManifestFile) :
    Nat × Nat :=
  if trashDirExists = false then (0, 0)
  else
    ((load_trash_manifest mf).length,
     ((load_trash_manifest mf).map (fun it => it.size)).sum)

/-! ## DuplicateScanner (`maintenance.hash_file` /
`maintenance.find_duplicates`)

The walked tree is a list of (root-relative path, content) files in
`os.walk` order.  SHA-256 is idealized as an injective digest of the
hashed bytes (`sha256 = id`), so digest equality coincides with
equality of the hashed byte strings — the reading under which the
algorithm is designed to be exact. -/

def LARGE_FILE_THRESHOLD : Nat := 100 * 1024 * 1024

def PARTIAL_HASH_SIZE : Nat := 1024 * 1024

def HASH_CHUNK_SIZE : Nat := 64 * 1024

/-- Idealized injective SHA-256 digest. -/
def sha256 (data : List Nat) : List Nat := data

/-- A file as the scan sees it: root-relative path and content. -/
structure SFile where
  path : String
  content : List Nat
deriving DecidableEq

instance : Inhabited SFile := ⟨⟨"", []⟩⟩

/-- Embedding of `maintenance.hash_file`: a full chunked digest of the
content, except that with `partial=True` a file strictly larger than
`LARGE_FILE_THRESHOLD` is digested over its first and its last
`PARTIAL_HASH_SIZE` bytes only (`f.read(P)` then `f.seek(-P, 2)` and
`f.read(P)`). -/
def hash_file (c : List Nat) (part : Bool) : List Nat :=
  if part = true ∧ LARGE_FILE_THRESHOLD < c.length then
    sha256 (c.take PARTIAL_HASH_SIZE ++
      c.drop (c.length - PARTIAL_HASH_SIZE))
  else sha256 c

/-- Whether `sub` occurs as a contiguous run inside `s`. -/
def hasSubList (sub : List Char) : List Char → Bool
  | [] => sub.isPrefixOf []
  | c :: rest =>
    if sub.isPrefixOf (c :: rest) then true else hasSubList sub rest

/-- Python's `sub in s` substring test. -/
def containsSub (s sub : String) : Bool :=
  hasSubList sub.data s.data

/-- `os.path.dirname` for a relative path. -/
def dirname (p : String) : String :=
  match lastIdxOf p.data '/' with
  | none => ""
  | some j => ⟨p.data.take j⟩

/-- Step 1's walk with `'_duplicates' in root or '.trash' in root`
pruning: a file is scanned unless its directory's path mentions either
name.  (The storage root itself is assumed clean of both.) -/
def walkFiles (files : List SFile) : List SFile :=
  files.filter (fun f =>
    !(containsSub (dirname f.path) "_duplicates" ||
      containsSub (dirname f.path) ".trash"))

/-- `defaultdict(list)` + `append`: append `x` to the group keyed `k`,
creating the group at the end if absent (insertion-ordered keys). -/
def insertGrp {κ : Type} [DecidableEq κ] (acc : List (κ × List SFile))
    (k : κ) (x : SFile) : List (κ × List SFile) :=
  match acc with
  | [] => [(k, [x])]
  | (k', g) :: rest =>
    if k' = k then (k', g ++ [x]) :: rest
    else (k', g) :: insertGrp rest k x

/-- `defaultdict` assignment `d[k] = g`: replace the group wholesale,
creating it at the end if absent. -/
def setGrp {κ : Type} [DecidableEq κ] (acc : List (κ × List SFile))
    (k : κ) (g : List SFile) : List (κ × List SFile) :=
  match acc with
  | [] => [(k, g)]
  | (k', g') :: rest =>
    if k' = k then (k', g) :: rest
    else (k', g') :: setGrp rest k g

/-- The group stored under key `k` (empty when absent). -/
def glookup {κ : Type} [DecidableEq κ] (acc : List (κ × List SFile))
    (k : κ) : List SFile :=
  match acc with
  | [] => []
  | (k', g) :: rest => if k' = k then g else glookup rest k

/-- Group a file list by a key function, keys in first-occurrence
order, members in encounter order — a `defaultdict(list)` loop. -/
def groupByKey {κ : Type} [DecidableEq κ] (key : SFile → κ)
    (xs : List SFile) : List (κ × List SFile) :=
  xs.foldl (fun acc x => insertGrp acc (key x) x) []

/-- Step 1: group the walked files by byte size. -/
def sizeGroups (files : List SFile) : List (Nat × List SFile) :=
  groupByKey (fun f => f.content.length) (walkFiles files)

/-- Step 2: only files whose size matches another file's get hashed. -/
def filesToHash (files : List SFile) : List SFile :=
  (((sizeGroups files).filter (fun g => 1 < g.2.length)).map
    (fun g => g.2)).flatten

/-- Step 3: group the candidates by their (partial-eligible) digest. -/
def partialGroups (files : List SFile) : List (List Nat × List SFile) :=
  groupByKey (fun f => hash_file f.content true) (filesToHash files)

/-- Step 4, one partial-hash group: a group of at least two whose first
member is strictly larger than the threshold has every member re-hashed
in full and appended under its full digest
(`final_hashes[full_hash].append`); any other group of at least two is
assigned wholesale under its partial key
(`final_hashes[partial_hash] = files`).  The second accumulator
component records, in order, the files that were fully re-hashed. -/
def confirmStep (acc : List (List Nat × List SFile) × List SFile)
    (g : List Nat × List SFile) :
    List (List Nat × List SFile) × List SFile :=
  if 1 < g.2.length then
    if LARGE_FILE_THRESHOLD < g.2.headI.content.length then
      (g.2.foldl (fun a f => insertGrp a (hash_file f.content false) f)
        acc.1, acc.2 ++ g.2)
    else (setGrp acc.1 g.1 g.2, acc.2)
  else acc

/-- The `final_hashes` dictionary after step 4. -/
def finalHashes (files : List SFile) : List (List Nat × List SFile) :=
  ((partialGroups files).foldl confirmStep ([], [])).1

/-- The files `find_duplicates` re-hashed in full during step 4. -/
def rehashedFiles (files : List SFile) : List SFile :=
  ((partialGroups files).foldl confirmStep ([], [])).2

/-- Step 5's filter: only digest groups with two or more members are
confirmed duplicates. -/
def duplicateGroups (files : List SFile) : List (List Nat × List SFile) :=
  (finalHashes files).filter (fun g => 1 < g.2.length)

/-- One reported duplicate group:
`{"hash", "count", "size", "files"}`. -/
structure DupGroup where
  hash : List Nat
  count : Nat
  size : Nat
  files : List SFile
deriving DecidableEq

/-- The scan's return value: `{"count", "duplicates"}`. -/
structure ScanResult where
  count : Nat
  duplicates : List DupGroup
deriving DecidableEq

def hexChar (n : Nat) : Char :=
  if n < 10 then Char.ofNat (48 + n) else Char.ofNat (87 + n)

def hexByte (b : Nat) : String :=
  ⟨[hexChar (b % 256 / 16), hexChar (b % 16)]⟩

/-- `file_hash[:8]`: the first eight hex characters of the digest, that
is its first four bytes. -/
def hashTag (d : List Nat) : String :=
  ((d.take 4).map hexByte).foldl (fun a s => a ++ s) ""

/-- `path.replace('/', '_').replace('\\', '_')`. -/
def safeQName (p : String) : String :=
  ⟨p.data.map (fun c => if c = '/' ∨ c = '\\' then '_' else c)⟩

/-- The quarantine copies of one duplicate group:
`_duplicates/<tag>/<idx>_<safe path>`, contents copied. -/
def groupCopies (h : List Nat) (g : List SFile) : List SFile :=
  ((List.range g.length).zip g).map (fun q =>
    ⟨"_duplicates/" ++ hashTag h ++ "/" ++ toString q.1 ++ "_" ++
      safeQName q.2.path, q.2.content⟩)

/-- A path inside the quarantine folder — exactly what
`shutil.rmtree(<root>/_duplicates)` removes. -/
def underQuarantine (p : String) : Bool :=
  ("_duplicates/" : String).data.isPrefixOf p.data

/-- Middle length making the scenario files just exceed the
large-file threshold. -/
def cexMid : Nat := LARGE_FILE_THRESHOLD - 2 * PARTIAL_HASH_SIZE + 1

/-- A 2 MiB content equal to the combined head+tail partial window of
the big scenario files. -/
def cexWindow : List Nat := List.replicate (2 * PARTIAL_HASH_SIZE) 0

/-- A second 2 MiB content, providing a size partner. -/
def cexOther : List Nat := List.replicate (2 * PARTIAL_HASH_SIZE) 3

/-- A just-over-threshold content: 1 MiB of zeros, a distinctive
middle, 1 MiB of zeros. -/
def cexBigC : List Nat :=
  List.replicate PARTIAL_HASH_SIZE 0 ++ List.replicate cexMid 1 ++
    List.replicate PARTIAL_HASH_SIZE 0

/-- Same head and tail windows as `cexBigC` but a different middle. -/
def cexBigD : List Nat :=
  List.replicate PARTIAL_HASH_SIZE 0 ++ List.replicate cexMid 2 ++
    List.replicate PARTIAL_HASH_SIZE 0

/-- Scenario tree: an identical pair, a 2 MiB pair whose first member
equals the big files' partial window, and the two big files sharing
windows but differing in the middle. -/
def cexTree : List SFile :=
  [⟨"u1.bin", [7]⟩, ⟨"u2.bin", [7]⟩, ⟨"e1.bin", cexWindow⟩,
   ⟨"e2.bin", cexOther⟩, ⟨"c1.bin", cexBigC⟩, ⟨"d1.bin", cexBigD⟩]

/-- A content one byte over the large-file threshold: the smallest kind
of file step 4 ever re-hashes. -/
def wbig : List Nat := List.replicate (LARGE_FILE_THRESHOLD + 1) 0

/-- Two identical copies of that content: the smallest tree in which
step 4 re-hashes anything. -/
def wtree : List SFile := [⟨"x.bin", wbig⟩, ⟨"y.bin", wbig⟩]

/-- Embedding of `maintenance.find_duplicates`: steps 1-4 produce the
confirmed groups; with no duplicates the function returns count 0
before touching the quarantine folder, otherwise the quarantine folder
is wiped and recreated with the group copies, and the formatted result
is returned alongside the post-scan tree. -/
def find_duplicates (files : List SFile) : ScanResult × List SFile :=
  if (duplicateGroups files).length = 0 then
    ({ count := 0, duplicates := [] }, files)
  else
    ({ count := (duplicateGroups files).length,
       duplicates := (duplicateGroups files).map (fun g =>
         { hash := g.1, count := g.2.length,
           size := match g.2 with
                   | [] => 0
                   | f :: _ => f.content.length,
           files := g.2 }) },
     files.filter (fun f => !underQuarantine f.path) ++
       ((duplicateGroups files).map (fun g => groupCopies g.1 g.2)).flatten)

end HomeDrive

namespace HomeDrive

/-! ## Association-map laws -/

theorem mfind_filter_ne_self {α : Type} (m : List (String × α)) (k : String) :
    mfind (m.filter (fun e => e.1 ≠ k)) k = none := by
  induction m with
  | nil => rfl
  | cons e rest ih =>
    obtain ⟨k1, v1⟩ := e
    rw [List.filter_cons]
    by_cases h : k1 = k
    · rw [if_neg (by simp [h])]
      exact ih
    · rw [if_pos (by simp [h])]
      simp only [mfind]
      rw [if_neg h]
      exact ih

theorem mfind_filter_ne {α : Type} (m : List (String × α)) (k k' : String)
    (h : k' ≠ k) : mfind (m.filter (fun e => e.1 ≠ k)) k' = mfind m k' := by
  induction m with
  | nil => rfl
  | cons e rest ih =>
    obtain ⟨k1, v1⟩ := e
    rw [List.filter_cons]
    by_cases h1 : k1 = k
    · rw [if_neg (by simp [h1])]
      rw [ih]
      simp only [mfind]
      rw [if_neg (fun hk : k1 = k' => h (hk ▸ h1))]
    · rw [if_pos (by simp [h1])]
      simp only [mfind]
      by_cases h2 : k1 = k'
      · rw [if_pos h2, if_pos h2]
      · rw [if_neg h2, if_neg h2]
        exact ih

theorem mfind_mset_self {α : Type} (m : List (String × α)) (k : String) (v : α) :
    mfind (mset m k v) k = some v := by
  simp [mset, mfind]

theorem mfind_mset_ne {α : Type} (m : List (String × α)) (k k' : String) (v : α)
    (h : k' ≠ k) : mfind (mset m k v) k' = mfind m k' := by
  simp only [mset, mfind]
  rw [if_neg (fun hk => h hk.symm)]
  exact mfind_filter_ne m k k' h

theorem mfind_mdel_self {α : Type} (m : List (String × α)) (k : String) :
    mfind (mdel m k) k = none :=
  mfind_filter_ne_self m k

theorem mfind_mdel_ne {α : Type} (m : List (String × α)) (k k' : String)
    (h : k' ≠ k) : mfind (mdel m k) k' = mfind m k' :=
  mfind_filter_ne m k k' h

/-! ## Store laws -/

theorem findDestGo_not_mem (fs : Store) (up b e : String) (c fuel : Nat)
    (d : String) (h : findDestGo fs up b e c fuel = some d) :
    mfind fs d = none := by
  induction fuel generalizing c with
  | zero => simp [findDestGo] at h
  | succ n ih =>
    rw [findDestGo] at h
    rcases hmf : mfind fs (joinRel up (b ++ "_" ++ toString c ++ e)) with _ | v
    · rw [hmf] at h
      cases h
      exact hmf
    · rw [hmf] at h
      exact ih (c + 1) h

theorem findDest_not_mem (fs : Store) (up fn : String) (fuel : Nat)
    (d : String) (h : findDest fs up fn fuel = some d) :
    mfind fs d = none := by
  rw [findDest] at h
  rcases hmf : mfind fs (joinRel up fn) with _ | v
  · rw [hmf] at h
    cases h
    exact hmf
  · rw [hmf] at h
    exact findDestGo_not_mem fs up _ _ 1 fuel d h

theorem append_tmp_ne (s : String) : ¬(s ++ ".tmp" = s) := by
  intro h
  have h2 := congrArg String.length h
  rw [String.length_append] at h2
  have h3 : (".tmp" : String).length = 4 := rfl
  omega

/-! ## Claim theorems -/

/-- **C1.** With storage root `/home/drive`, the relative user path
`../drive_evil` contains a `..` segment and canonicalizes to
`/home/drive_evil`, a sibling of the root — it escapes the root — yet
`is_safe_path` accepts it (the string `/home/drive_evil` starts with
the string `/home/drive`) and `get_full_path` returns a path instead of
rejecting with `InvalidPath`.  This evaluates the code at the failing
input of the path-confinement claim. -/
theorem c1_path_confinement_failing_input :
    is_safe_path ["home", "drive"] ⟨["..", "drive_evil"], false⟩ = true ∧
    resolvePath (joinedParts ["home", "drive"]
      ⟨["..", "drive_evil"], false⟩) = ["home", "drive_evil"] ∧
    withinRoot ["home", "drive"] ["home", "drive_evil"] = false ∧
    get_full_path ["home", "drive"] ⟨["..", "drive_evil"], false⟩ ≠ none := by
  refine ⟨?_, ?_, ?_, ?_⟩ <;> decide

/-- **C2.** Upload atomicity: at every store state produced while the
stream is being consumed, nothing exists at the final destination; if
the stream fails, the temp sibling is removed, the destination holds no
file, and the error is surfaced; only a fully consumed stream makes the
file visible at the destination, holding the complete byte sequence. -/
theorem c2_upload_atomicity (fs : Store) (free : Nat)
    (user_path fname : String) (s : UploadStream) (fuel : Nat)
    (dest : String)
    (hn : ¬secure_filename fname = "")
    (hl : ¬MAX_FILENAME_LENGTH < (secure_filename fname).length)
    (hd : findDest fs user_path (secure_filename fname) fuel = some dest) :
    (∀ g ∈ uploadWriteStates fs (dest ++ ".tmp") s.chunks,
        mfind g dest = none) ∧
    (s.fails = true →
      (saveUploadedFile fs free user_path fname s fuel).2 =
          .error .cannotSave ∧
      mfind (saveUploadedFile fs free user_path fname s fuel).1 dest =
          none ∧
      mfind (saveUploadedFile fs free user_path fname s fuel).1
          (dest ++ ".tmp") = none) ∧
    (s.fails = false →
      (saveUploadedFile fs free user_path fname s fuel).2 = .ok dest ∧
      mfind (saveUploadedFile fs free user_path fname s fuel).1 dest =
          some (.file s.chunks.flatten)) := by
  have hfree : mfind fs dest = none :=
    findDest_not_mem fs user_path (secure_filename fname) fuel dest hd
  have hne : dest ≠ dest ++ ".tmp" := fun h => append_tmp_ne dest h.symm
  have hsave : saveUploadedFile fs free user_path fname s fuel =
      (if s.fails = true
       then (mdel (mset fs (dest ++ ".tmp") (.file s.chunks.flatten))
               (dest ++ ".tmp"), .error .cannotSave)
       else (mset (mdel (mset fs (dest ++ ".tmp")
               (.file s.chunks.flatten)) (dest ++ ".tmp")) dest
               (.file s.chunks.flatten), .ok dest)) := by
    rw [saveUploadedFile, if_neg hn, if_neg hl, hd]
  refine ⟨?_, ?_, ?_⟩
  · intro g hg
    simp only [uploadWriteStates, List.mem_map, List.mem_range] at hg
    obtain ⟨k, _, rfl⟩ := hg
    rw [mfind_mset_ne _ _ _ _ hne]
    exact hfree
  · intro hfail
    rw [hsave]
    rw [if_pos hfail]
    refine ⟨rfl, ?_, ?_⟩
    · rw [mfind_mdel_ne _ _ _ hne, mfind_mset_ne _ _ _ _ hne]
      exact hfree
    · exact mfind_mdel_self _ _
  · intro hok
    rw [hsave]
    rw [if_neg (by rw [hok]; exact Bool.false_ne_true)]
    exact ⟨rfl, mfind_mset_self _ _ _⟩

/-- Witness for C2 at a concrete input: empty store, upload of
`a.txt` whose stream delivers two chunks and then fails. -/
theorem c2_upload_atomicity_witness :
    (¬secure_filename "a.txt" = "") ∧
    (¬MAX_FILENAME_LENGTH < (secure_filename "a.txt").length) ∧
    findDest [] "" (secure_filename "a.txt") 1 = some "a.txt" ∧
    ((∀ g ∈ uploadWriteStates [] ("a.txt" ++ ".tmp") [[1], [2]],
        mfind g "a.txt" = none) ∧
     ((UploadStream.mk [[1], [2]] true).fails = true →
       (saveUploadedFile [] 0 "" "a.txt" ⟨[[1], [2]], true⟩ 1).2 =
           .error .cannotSave ∧
       mfind (saveUploadedFile [] 0 "" "a.txt" ⟨[[1], [2]], true⟩ 1).1
           "a.txt" = none ∧
       mfind (saveUploadedFile [] 0 "" "a.txt" ⟨[[1], [2]], true⟩ 1).1
           ("a.txt" ++ ".tmp") = none) ∧
     ((UploadStream.mk [[1], [2]] true).fails = false →
       (saveUploadedFile [] 0 "" "a.txt" ⟨[[1], [2]], true⟩ 1).2 =
           .ok "a.txt" ∧
       mfind (saveUploadedFile [] 0 "" "a.txt" ⟨[[1], [2]], true⟩ 1).1
           "a.txt" = some (.file ([[1], [2]] : List (List Nat)).flatten))) :=
  ⟨by decide, by decide, by decide,
   c2_upload_atomicity [] 0 "" "a.txt" ⟨[[1], [2]], true⟩ 1 "a.txt"
     (by decide) (by decide) (by decide)⟩

/-- **C6.** The free-space precondition is never enforced: the
`has_space_for_upload` predicate exists (and with free space `0` it
rejects even a one-byte upload), but `save_uploaded_file` and its
`api_upload` caller never consult the partition's free space — the
upload result is independent of it, and an upload is accepted and
written with zero free bytes instead of failing with
`InsufficientSpace`.  This evaluates the code at the failing input of
the free-space claim. -/
theorem c6_free_space_never_checked :
    has_space_for_upload 0 1 = false ∧
    (saveUploadedFile [] 0 "" "a.txt" ⟨[[42]], false⟩ 1).2 = .ok "a.txt" ∧
    mfind (saveUploadedFile [] 0 "" "a.txt" ⟨[[42]], false⟩ 1).1 "a.txt" =
        some (.file [42]) ∧
    ∀ (fs : Store) (free1 free2 : Nat) (up fn : String)
      (s : UploadStream) (fuel : Nat),
      saveUploadedFile fs free1 up fn s fuel =
        saveUploadedFile fs free2 up fn s fuel :=
  ⟨by decide, by decide, by decide, fun _ _ _ _ _ _ _ => rfl⟩

/-- **C8.** Collision handling: a second `create_folder` with the same
sanitized name in the same parent fails with `AlreadyExists` and leaves
the store unchanged, and two back-to-back uploads both literally named
`a.txt` into the same folder land on disk as `a.txt` and `a_1.txt`. -/
theorem c8_collision_handling :
    (∀ (fs : Store) (up name : String) (fs1 : Store) (p : String),
        create_folder fs up name = (fs1, .ok p) →
        create_folder fs1 up name = (fs1, .error .alreadyExists)) ∧
    (∀ (fs : Store) (free1 free2 : Nat) (c1 c2 : List (List Nat)),
        mfind fs "a.txt" = none → mfind fs "a_1.txt" = none →
        (saveUploadedFile fs free1 "" "a.txt" ⟨c1, false⟩ 2).2 =
            .ok "a.txt" ∧
        (saveUploadedFile (saveUploadedFile fs free1 "" "a.txt"
              ⟨c1, false⟩ 2).1 free2 "" "a.txt" ⟨c2, false⟩ 2).2 =
            .ok "a_1.txt" ∧
        mfind (saveUploadedFile (saveUploadedFile fs free1 "" "a.txt"
              ⟨c1, false⟩ 2).1 free2 "" "a.txt" ⟨c2, false⟩ 2).1
            "a.txt" = some (.file c1.flatten) ∧
        mfind (saveUploadedFile (saveUploadedFile fs free1 "" "a.txt"
              ⟨c1, false⟩ 2).1 free2 "" "a.txt" ⟨c2, false⟩ 2).1
            "a_1.txt" = some (.file c2.flatten)) := by
  constructor
  · intro fs up name fs1 p h
    by_cases h1 : secure_filename name = ""
    · simp [create_folder, h1] at h
    by_cases h2 : MAX_FILENAME_LENGTH < (secure_filename name).length
    · simp [create_folder, h1, h2] at h
    rcases h3 : mfind fs (joinRel up (secure_filename name)) with _ | v
    · rw [create_folder, if_neg h1, if_neg h2, h3] at h
      have h4 : mset fs (joinRel up (secure_filename name)) Entry.dir =
          fs1 := congrArg Prod.fst h
      subst h4
      rw [create_folder, if_neg h1, if_neg h2, mfind_mset_self]
    · simp [create_folder, h1, h2, h3] at h
  · intro fs free1 free2 c1 c2 hA hB
    have hsf : secure_filename "a.txt" = "a.txt" := by decide
    have hjr : joinRel "" "a.txt" = "a.txt" := by decide
    have hn1 : ¬(("a.txt" : String) = "") := by decide
    have hl1 : ¬MAX_FILENAME_LENGTH < ("a.txt" : String).length := by decide
    have hd1 : findDest fs "" "a.txt" 2 = some "a.txt" := by
      rw [findDest, hjr, hA]
    have hsave1 : saveUploadedFile fs free1 "" "a.txt" ⟨c1, false⟩ 2 =
        (mset (mdel (mset fs ("a.txt" ++ ".tmp") (.file c1.flatten))
            ("a.txt" ++ ".tmp")) "a.txt" (.file c1.flatten),
         .ok "a.txt") := by
      rw [saveUploadedFile, hsf, if_neg hn1, if_neg hl1, hd1]
      exact rfl
    set fs1 := mset (mdel (mset fs ("a.txt" ++ ".tmp")
        (.file c1.flatten)) ("a.txt" ++ ".tmp")) "a.txt"
        (.file c1.flatten) with hfs1
    have hms : mfind fs1 "a.txt" = some (Entry.file c1.flatten) := by
      rw [hfs1]
      exact mfind_mset_self _ _ _
    have hB1 : mfind fs1 "a_1.txt" = none := by
      rw [hfs1, mfind_mset_ne _ _ _ _ (by decide),
        mfind_mdel_ne _ _ _ (by decide), mfind_mset_ne _ _ _ _ (by decide)]
      exact hB
    have hd2 : findDest fs1 "" "a.txt" 2 = some "a_1.txt" := by
      show (match mfind fs1 (joinRel "" "a.txt") with
            | some _ => findDestGo fs1 "" (splitext "a.txt").1
                (splitext "a.txt").2 1 2
            | none => some (joinRel "" "a.txt")) = some "a_1.txt"
      rw [hjr, hms]
      show (match mfind fs1 (joinRel "" ((splitext "a.txt").1 ++ "_" ++
                toString 1 ++ (splitext "a.txt").2)) with
            | some _ => findDestGo fs1 "" (splitext "a.txt").1
                (splitext "a.txt").2 2 1
            | none => some (joinRel "" ((splitext "a.txt").1 ++ "_" ++
                toString 1 ++ (splitext "a.txt").2))) = some "a_1.txt"
      have hcand2 : joinRel "" ((splitext "a.txt").1 ++ "_" ++
          toString (1 : Nat) ++ (splitext "a.txt").2) = "a_1.txt" := by
        decide
      rw [hcand2, hB1]
    have hsave2 : saveUploadedFile fs1 free2 "" "a.txt" ⟨c2, false⟩ 2 =
        (mset (mdel (mset fs1 ("a_1.txt" ++ ".tmp") (.file c2.flatten))
            ("a_1.txt" ++ ".tmp")) "a_1.txt" (.file c2.flatten),
         .ok "a_1.txt") := by
      rw [saveUploadedFile, hsf, if_neg hn1, if_neg hl1, hd2]
      exact rfl
    have hfst : (saveUploadedFile fs free1 "" "a.txt" ⟨c1, false⟩ 2).1 =
        fs1 := by
      rw [hsave1]
    refine ⟨?_, ?_, ?_, ?_⟩
    · rw [hsave1]
    · rw [hfst, hsave2]
    · rw [hfst, hsave2, mfind_mset_ne _ _ _ _ (by decide),
        mfind_mdel_ne _ _ _ (by decide), mfind_mset_ne _ _ _ _ (by decide),
        hms]
    · rw [hfst, hsave2, mfind_mset_self]

/-- Witness for C8 at concrete inputs: the folder `Photos` created
twice from the empty store, and two `a.txt` uploads into the empty
store. -/
theorem c8_collision_handling_witness :
    create_folder ([("Photos", Entry.dir)] : Store) "" "Photos" =
        ([("Photos", Entry.dir)], .error .alreadyExists) ∧
    (mfind ([] : Store) "a.txt" = none ∧ mfind ([] : Store) "a_1.txt" = none ∧
     (saveUploadedFile ([] : Store) 0 "" "a.txt" ⟨[[7]], false⟩ 2).2 =
         .ok "a.txt" ∧
     (saveUploadedFile (saveUploadedFile ([] : Store) 0 "" "a.txt"
           ⟨[[7]], false⟩ 2).1 0 "" "a.txt" ⟨[[9]], false⟩ 2).2 =
         .ok "a_1.txt") :=
  ⟨c8_collision_handling.1 [] "" "Photos" [("Photos", Entry.dir)] "Photos"
      (by decide),
   by decide, by decide,
   (c8_collision_handling.2 [] 0 0 [[7]] [[9]] (by decide) (by decide)).1,
   (c8_collision_handling.2 [] 0 0 [[7]] [[9]] (by decide) (by decide)).2.1⟩

/-! ## TrashManager laws -/

theorem trashNameGo_not_mem (tr : List (String × TObj)) (ts : Nat)
    (name : String) (c fuel : Nat) (tn : String)
    (h : trashNameGo tr ts name c fuel = some tn) : mfind tr tn = none := by
  induction fuel generalizing c with
  | zero => simp [trashNameGo] at h
  | succ n ih =>
    rw [trashNameGo] at h
    rcases hmf : mfind tr ("item_" ++ toString ts ++ "_" ++ toString c ++
        "_" ++ name) with _ | v
    · rw [hmf] at h
      cases h
      exact hmf
    · rw [hmf] at h
      exact ih (c + 1) h

theorem findTrashName_not_mem (tr : List (String × TObj)) (ts : Nat)
    (name : String) (fuel : Nat) (tn : String)
    (h : findTrashName tr ts name fuel = some tn) : mfind tr tn = none := by
  rw [findTrashName] at h
  rcases hmf : mfind tr ("item_" ++ toString ts ++ "_" ++ name) with _ | v
  · rw [hmf] at h
    cases h
    exact hmf
  · rw [hmf] at h
    exact trashNameGo_not_mem tr ts name 1 fuel tn h

theorem findTrashItem_append_fresh (xs : List TrashItem) (it : TrashItem)
    (tn : String) (hfresh : ∀ x ∈ xs, x.trash_name ≠ tn)
    (hit : it.trash_name = tn) :
    findTrashItem (xs ++ [it]) tn = some (it, xs.length) := by
  induction xs with
  | nil => simp [findTrashItem, hit]
  | cons x rest ih =>
    have hx : x.trash_name ≠ tn := hfresh x (by simp)
    rw [List.cons_append, findTrashItem, if_neg hx,
      ih (fun y hy => hfresh y (by simp [hy]))]
    simp

theorem eraseIdx_append_last (xs : List TrashItem) (a : TrashItem) :
    (xs ++ [a]).eraseIdx xs.length = xs := by
  induction xs with
  | nil => rfl
  | cons x rest ih => simp [List.eraseIdx, ih]

/-- **C3.** Trash round trip: an existing object moved to trash and
then restored under the returned trash name — with the manifest
satisfying its consistency invariant (every entry's backing object is
present) — comes back with the identical payload at the identical
relative path, and the manifest afterwards has no entry under that
trash name.  (No name collision can arise at the destination: the move
itself vacated it.) -/
theorem c3_trash_round_trip (st : TrashState) (p : String) (now fuel : Nat)
    (obj : TObj) (st1 : TrashState) (tn : String)
    (hobj : mfind st.files p = some obj)
    (hcons : ∀ it ∈ st.manifest, mfind st.trash it.trash_name ≠ none)
    (hmv : move_to_trash st p now fuel = (st1, .ok tn)) :
    ∀ fuel2 : Nat,
      (restore_from_trash st1 tn fuel2).2 = .ok p ∧
      mfind (restore_from_trash st1 tn fuel2).1.files p = some obj ∧
      ∀ it ∈ (restore_from_trash st1 tn fuel2).1.manifest,
        it.trash_name ≠ tn := by
  intro fuel2
  rw [move_to_trash, hobj] at hmv
  rcases hft : findTrashName st.trash now (basename p) fuel with _ | tn0
  · rw [hft] at hmv
    exact absurd (congrArg Prod.snd hmv) (by simp)
  · rw [hft] at hmv
    have htn : tn0 = tn := Except.ok.inj (congrArg Prod.snd hmv)
    subst htn
    have hst1 := congrArg Prod.fst hmv
    subst hst1
    have hfree : mfind st.trash tn0 = none :=
      findTrashName_not_mem st.trash now (basename p) fuel tn0 hft
    have hfresh : ∀ it ∈ st.manifest, it.trash_name ≠ tn0 :=
      fun it hit he => hcons it hit (he.symm ▸ hfree)
    have hfind := findTrashItem_append_fresh st.manifest
      { trash_name := tn0, original_path := p,
        original_name := basename p, deletion_time := now,
        is_folder := obj.isDir, size := obj.bytes.length } tn0 hfresh rfl
    have hrest : restore_from_trash
        { files := mdel st.files p, trash := mset st.trash tn0 obj,
          manifest := st.manifest ++
            [{ trash_name := tn0, original_path := p,
               original_name := basename p, deletion_time := now,
               is_folder := obj.isDir, size := obj.bytes.length }] }
        tn0 fuel2 =
        ({ files := mset (mdel st.files p) p obj,
           trash := mdel (mset st.trash tn0 obj) tn0,
           manifest := st.manifest }, .ok p) := by
      rw [restore_from_trash]
      simp only [hfind, mfind_mset_self, mfind_mdel_self,
        eraseIdx_append_last]
    rw [hrest]
    exact ⟨rfl, mfind_mset_self _ _ _, fun it hit => hfresh it hit⟩

/-- Witness for C3 at a concrete input: a one-file store, consistent
empty manifest, move then restore of `Docs/report.pdf`. -/
theorem c3_trash_round_trip_witness :
    (mfind [("Docs/report.pdf", TObj.mk [5, 6] false)] "Docs/report.pdf" =
        some (TObj.mk [5, 6] false)) ∧
    ((restore_from_trash
        (move_to_trash
          ⟨[("Docs/report.pdf", TObj.mk [5, 6] false)], [], []⟩
          "Docs/report.pdf" 100 1).1
        "item_100_report.pdf" 1).2 = .ok "Docs/report.pdf" ∧
     mfind (restore_from_trash
        (move_to_trash
          ⟨[("Docs/report.pdf", TObj.mk [5, 6] false)], [], []⟩
          "Docs/report.pdf" 100 1).1
        "item_100_report.pdf" 1).1.files "Docs/report.pdf" =
        some (TObj.mk [5, 6] false)) := by
  have h := c3_trash_round_trip
    ⟨[("Docs/report.pdf", TObj.mk [5, 6] false)], [], []⟩
    "Docs/report.pdf" 100 1 (TObj.mk [5, 6] false)
    (move_to_trash ⟨[("Docs/report.pdf", TObj.mk [5, 6] false)], [], []⟩
      "Docs/report.pdf" 100 1).1
    "item_100_report.pdf" (by decide) (by decide) (by decide) 1
  exact ⟨by decide, h.1, h.2.1⟩

theorem cleanupStep_trash_stable (now : Nat) (cd : String → Bool)
    (acc : List (String × TObj) × List TrashItem × Nat × List String)
    (it : TrashItem) (k : String) (hk : cd k = false) :
    mfind (cleanupStep now cd acc it).1 k = mfind acc.1 k := by
  rw [cleanupStep]
  by_cases hexp : trashExpired now it
  · rw [if_pos hexp]
    rcases hm : mfind acc.1 it.trash_name with _ | o
    · rfl
    · by_cases hcd : cd it.trash_name = true
      · rw [if_pos hcd]
        exact mfind_mdel_ne _ _ _ (fun he => by rw [he, hcd] at hk; simp at hk)
      · rw [if_neg hcd]
  · rw [if_neg hexp]

theorem cleanupStep_keep_mono (now : Nat) (cd : String → Bool)
    (acc : List (String × TObj) × List TrashItem × Nat × List String)
    (x it : TrashItem) (hx : x ∈ acc.2.1) :
    x ∈ (cleanupStep now cd acc it).2.1 := by
  rw [cleanupStep]
  by_cases hexp : trashExpired now it
  · rw [if_pos hexp]
    rcases hm : mfind acc.1 it.trash_name with _ | o
    · exact hx
    · by_cases hcd : cd it.trash_name = true
      · rw [if_pos hcd]
        exact hx
      · rw [if_neg hcd]
        exact List.mem_append_left _ hx
  · rw [if_neg hexp]
    exact List.mem_append_left _ hx

theorem cleanup_fold_keep_mono (now : Nat) (cd : String → Bool)
    (ms : List TrashItem) :
    ∀ acc x, x ∈ acc.2.1 →
      x ∈ (ms.foldl (cleanupStep now cd) acc).2.1 := by
  induction ms with
  | nil => exact fun acc x hx => hx
  | cons it rest ih =>
    intro acc x hx
    rw [List.foldl_cons]
    exact ih _ x (cleanupStep_keep_mono now cd acc x it hx)

theorem cleanup_fold_trash_stable (now : Nat) (cd : String → Bool)
    (ms : List TrashItem) :
    ∀ acc k, cd k = false →
      mfind (ms.foldl (cleanupStep now cd) acc).1 k = mfind acc.1 k := by
  induction ms with
  | nil => exact fun acc k _ => rfl
  | cons it rest ih =>
    intro acc k hk
    rw [List.foldl_cons, ih _ k hk, cleanupStep_trash_stable now cd acc it k hk]

theorem cleanup_fold_keep_ok (now : Nat) (cd : String → Bool)
    (ms : List TrashItem) :
    ∀ acc,
      (∀ it ∈ acc.2.1, ¬trashExpired now it ∨
        (cd it.trash_name = false ∧ mfind acc.1 it.trash_name ≠ none)) →
      ∀ it ∈ (ms.foldl (cleanupStep now cd) acc).2.1,
        ¬trashExpired now it ∨
          (cd it.trash_name = false ∧
           mfind (ms.foldl (cleanupStep now cd) acc).1 it.trash_name ≠
             none) := by
  induction ms with
  | nil => exact fun acc h => h
  | cons it rest ih =>
    intro acc hacc
    rw [List.foldl_cons]
    refine ih _ ?_
    intro x hx
    have hstep : ∀ y : TrashItem, cd y.trash_name = false →
        mfind acc.1 y.trash_name ≠ none →
        mfind (cleanupStep now cd acc it).1 y.trash_name ≠ none :=
      fun y hy hne => by
        rw [cleanupStep_trash_stable now cd acc it y.trash_name hy]
        exact hne
    rw [cleanupStep] at hx
    by_cases hexp : trashExpired now it
    · rw [if_pos hexp] at hx
      rcases hm : mfind acc.1 it.trash_name with _ | o
      · rw [hm] at hx
        rcases hacc x hx with h | ⟨h1, h2⟩
        · exact Or.inl h
        · exact Or.inr ⟨h1, hstep x h1 h2⟩
      · rw [hm] at hx
        by_cases hcd : cd it.trash_name = true
        · rw [if_pos hcd] at hx
          rcases hacc x hx with h | ⟨h1, h2⟩
          · exact Or.inl h
          · exact Or.inr ⟨h1, hstep x h1 h2⟩
        · rw [if_neg hcd] at hx
          rcases List.mem_append.1 hx with hx1 | hx2
          · rcases hacc x hx1 with h | ⟨h1, h2⟩
            · exact Or.inl h
            · exact Or.inr ⟨h1, hstep x h1 h2⟩
          · have hxit : x = it := by simpa using hx2
            subst hxit
            refine Or.inr ⟨Bool.eq_false_iff.2 (fun hb => hcd hb), ?_⟩
            rw [cleanupStep]
            rw [if_pos hexp, hm, if_neg hcd]
            rw [hm]
            exact fun hc => Option.noConfusion hc
    · rw [if_neg hexp] at hx
      rcases List.mem_append.1 hx with hx1 | hx2
      · rcases hacc x hx1 with h | ⟨h1, h2⟩
        · exact Or.inl h
        · exact Or.inr ⟨h1, hstep x h1 h2⟩
      · have hxit : x = it := by simpa using hx2
        subst hxit
        exact Or.inl hexp

theorem cleanup_fold_no_del (now : Nat) (cd : String → Bool)
    (ms : List TrashItem) :
    ∀ acc,
      (∀ it ∈ ms, ¬trashExpired now it ∨
        (cd it.trash_name = false ∧ mfind acc.1 it.trash_name ≠ none)) →
      (ms.foldl (cleanupStep now cd) acc).2.2.1 = acc.2.2.1 := by
  induction ms with
  | nil => exact fun acc _ => rfl
  | cons it rest ih =>
    intro acc hms
    rw [List.foldl_cons]
    have hstep : (cleanupStep now cd acc it).1 = acc.1 ∧
        (cleanupStep now cd acc it).2.2.1 = acc.2.2.1 := by
      rw [cleanupStep]
      rcases hms it (by simp) with h | ⟨h1, h2⟩
      · rw [if_neg h]
        exact ⟨rfl, rfl⟩
      · by_cases hexp : trashExpired now it
        · rw [if_pos hexp]
          rcases hm : mfind acc.1 it.trash_name with _ | o
          · exact absurd hm h2
          · rw [if_neg (by rw [h1]; exact Bool.false_ne_true)]
            exact ⟨rfl, rfl⟩
        · rw [if_neg hexp]
          exact ⟨rfl, rfl⟩
    rw [ih _ ?_, hstep.2]
    intro x hx
    rcases hms x (by simp [hx]) with h | ⟨h1, h2⟩
    · exact Or.inl h
    · refine Or.inr ⟨h1, ?_⟩
      rw [hstep.1]
      exact h2

theorem cleanup_fold_keep_failed (now : Nat) (cd : String → Bool)
    (ms : List TrashItem) :
    ∀ acc it, it ∈ ms → trashExpired now it →
      cd it.trash_name = false → mfind acc.1 it.trash_name ≠ none →
      it ∈ (ms.foldl (cleanupStep now cd) acc).2.1 := by
  induction ms with
  | nil => intro acc it h; cases h
  | cons x rest ih =>
    intro acc it hmem hexp hcd hne
    rw [List.foldl_cons]
    rcases List.mem_cons.1 hmem with rfl | htail
    · refine cleanup_fold_keep_mono now cd rest _ it ?_
      rw [cleanupStep, if_pos hexp]
      rcases hm : mfind acc.1 it.trash_name with _ | o
      · exact absurd hm hne
      · rw [if_neg (by rw [hcd]; exact Bool.false_ne_true)]
        simp
    · refine ih _ it htail hexp hcd ?_
      rw [cleanupStep_trash_stable now cd acc x it.trash_name hcd]
      exact hne

/-- **C7.** Idempotence of expiry cleanup: running `cleanup_old_trash`
twice in succession (same clock, no trash added in between) deletes
zero items on the second run, and an expired entry whose backing-object
deletion fails is retained in the manifest rather than dropped. -/
theorem c7_cleanup_idempotent (st : TrashState) (now : Nat)
    (cd : String → Bool) :
    (cleanup_old_trash (cleanup_old_trash st now cd).1 now cd).2.1 = 0 ∧
    ∀ it ∈ st.manifest, trashExpired now it →
      cd it.trash_name = false → mfind st.trash it.trash_name ≠ none →
      it ∈ (cleanup_old_trash st now cd).1.manifest := by
  constructor
  · have hok := cleanup_fold_keep_ok now cd st.manifest
      (st.trash, [], 0, []) (fun it hit => absurd hit (List.not_mem_nil it))
    have := cleanup_fold_no_del now cd
      (cleanup_old_trash st now cd).1.manifest
      ((cleanup_old_trash st now cd).1.trash, [], 0, []) (fun it hit => hok it hit)
    simpa [cleanup_old_trash] using this
  · intro it hit hexp hcd hne
    exact cleanup_fold_keep_failed now cd st.manifest
      (st.trash, [], 0, []) it hit hexp hcd hne

/-- Witness for C7 at a concrete input: one expired entry whose
backing object exists but cannot be deleted. -/
theorem c7_cleanup_idempotent_witness :
    (cleanup_old_trash
      (cleanup_old_trash
        ⟨[], [("t1", TObj.mk [1] false)],
         [⟨"t1", "a.txt", "a.txt", 0, false, 1⟩]⟩ 2600000
        (fun _ => false)).1 2600000 (fun _ => false)).2.1 = 0 ∧
    (⟨"t1", "a.txt", "a.txt", 0, false, 1⟩ : TrashItem) ∈
      (cleanup_old_trash
        ⟨[], [("t1", TObj.mk [1] false)],
         [⟨"t1", "a.txt", "a.txt", 0, false, 1⟩]⟩ 2600000
        (fun _ => false)).1.manifest :=
  ⟨(c7_cleanup_idempotent
      ⟨[], [("t1", TObj.mk [1] false)],
       [⟨"t1", "a.txt", "a.txt", 0, false, 1⟩]⟩ 2600000
      (fun _ => false)).1,
   (c7_cleanup_idempotent
      ⟨[], [("t1", TObj.mk [1] false)],
       [⟨"t1", "a.txt", "a.txt", 0, false, 1⟩]⟩ 2600000
      (fun _ => false)).2
     ⟨"t1", "a.txt", "a.txt", 0, false, 1⟩ (by decide) (by decide)
     (by decide) (by decide)⟩

/-- **C10.** Loading the trash manifest never propagates an error: a
missing file yields the empty manifest, any read or parse failure is
swallowed and yields the empty manifest (so load either returns the
parsed items or the empty fallback), and a corrupted manifest presents
the trash as empty — `get_trash_info` reports count 0 and size 0. -/
theorem c10_manifest_load_never_fails :
    (∀ mf : ManifestFile, load_trash_manifest mf = [] ∨
        readManifest mf = .ok (load_trash_manifest mf)) ∧
    (∀ (mf : ManifestFile) (e : String),
        readManifest mf = .error e → load_trash_manifest mf = []) ∧
    (∀ b : Bool, get_trash_info b .corrupt = (0, 0)) ∧
    get_trash_info true .missing = (0, 0) := by
  refine ⟨?_, ?_, ?_, rfl⟩
  · intro mf
    cases mf with
    | missing => exact Or.inl rfl
    | corrupt => exact Or.inl rfl
    | valid items => exact Or.inr rfl
  · intro mf e h
    cases mf with
    | missing => rfl
    | corrupt => rfl
    | valid items => exact absurd h (by simp [readManifest])
  · intro b
    cases b <;> rfl

/-! ## DuplicateScanner laws -/

/-- **C9 counterexample.** A scan that finds no duplicates returns
before touching the quarantine folder: with a single stale quarantine
file in the tree (excluded from the walk, so nothing is scanned), the
scan reports count 0 and the stale quarantine content survives —
refuting that the `_duplicates` folder is recreated on every scan
regardless of outcome. -/
theorem c9_quarantine_not_reset_counterexample :
    (find_duplicates [⟨"_duplicates/old/0_x", [1]⟩]).1.count = 0 ∧
    (find_duplicates [⟨"_duplicates/old/0_x", [1]⟩]).2 =
      [⟨"_duplicates/old/0_x", [1]⟩] :=
  ⟨by decide, by decide⟩

/-- **C9.** (amended) On every scan that finds at least one duplicate
group, the quarantine folder is wiped and recreated: every file under
`_duplicates/` in the post-scan tree lies inside a group folder
`_duplicates/<tag>/` of one of the groups this scan reported, so no
stale quarantine content survives such a scan.  (A scan finding no
duplicates returns early and leaves the quarantine folder untouched —
see the counterexample.) -/
theorem c9_quarantine_reset_amended (files : List SFile)
    (h : (find_duplicates files).1.count ≠ 0) :
    ∀ f ∈ (find_duplicates files).2, underQuarantine f.path = true →
      ∃ G ∈ (find_duplicates files).1.duplicates,
        ("_duplicates/" ++ hashTag G.hash ++ "/").data.isPrefixOf
          f.path.data := by
  by_cases hlen : (duplicateGroups files).length = 0
  · rw [find_duplicates, if_pos hlen] at h
    exact absurd rfl h
  · intro f hf hq
    rw [find_duplicates, if_neg hlen] at hf ⊢
    rcases List.mem_append.1 hf with hw | hc
    · rcases List.mem_filter.1 hw with ⟨-, hw2⟩
      rw [hq] at hw2
      simp at hw2
    · rcases List.mem_flatten.1 hc with ⟨l, hl, hfl⟩
      rcases List.mem_map.1 hl with ⟨g, hg, rfl⟩
      rcases List.mem_map.1 hfl with ⟨q, -, rfl⟩
      refine ⟨_, List.mem_map.2 ⟨g, hg, rfl⟩, ?_⟩
      show ("_duplicates/" ++ hashTag g.1 ++ "/").data.isPrefixOf
        ("_duplicates/" ++ hashTag g.1 ++ "/" ++ toString q.1 ++ "_" ++
          safeQName q.2.path).data = true
      rw [List.isPrefixOf_iff_prefix]
      refine ⟨(toString q.1 ++ "_" ++ safeQName q.2.path).data, ?_⟩
      rw [← String.data_append]
      congr 1
      simp [String.append_assoc]

/-- Witness for C9 (amended) at a concrete input: a tree holding one
duplicate pair and one stale quarantine file. -/
theorem c9_quarantine_reset_amended_witness :
    (find_duplicates [⟨"a", [1]⟩, ⟨"b", [1]⟩,
        ⟨"_duplicates/stale/z", [9]⟩]).1.count ≠ 0 ∧
    (∀ f ∈ (find_duplicates [⟨"a", [1]⟩, ⟨"b", [1]⟩,
        ⟨"_duplicates/stale/z", [9]⟩]).2, underQuarantine f.path = true →
      ∃ G ∈ (find_duplicates [⟨"a", [1]⟩, ⟨"b", [1]⟩,
          ⟨"_duplicates/stale/z", [9]⟩]).1.duplicates,
        ("_duplicates/" ++ hashTag G.hash ++ "/").data.isPrefixOf
          f.path.data) :=
  ⟨by decide,
   c9_quarantine_reset_amended
     [⟨"a", [1]⟩, ⟨"b", [1]⟩, ⟨"_duplicates/stale/z", [9]⟩] (by decide)⟩

theorem hash_file_full (c : List Nat) : hash_file c false = sha256 c := by
  rw [hash_file, if_neg]
  exact fun h => absurd h.1 Bool.false_ne_true

theorem hash_file_small (c : List Nat)
    (h : c.length ≤ LARGE_FILE_THRESHOLD) :
    hash_file c true = sha256 c := by
  rw [hash_file, if_neg]
  exact fun hcond => absurd hcond.2 (by omega)

theorem hash_file_large (c : List Nat)
    (h : LARGE_FILE_THRESHOLD < c.length) :
    hash_file c true = sha256 (c.take PARTIAL_HASH_SIZE ++
      c.drop (c.length - PARTIAL_HASH_SIZE)) := by
  rw [hash_file, if_pos ⟨rfl, h⟩]

theorem hash_file_partial_len (c : List Nat) :
    (hash_file c true).length ≤ LARGE_FILE_THRESHOLD := by
  have hT : LARGE_FILE_THRESHOLD = 104857600 := rfl
  have hP : PARTIAL_HASH_SIZE = 1048576 := rfl
  by_cases h : LARGE_FILE_THRESHOLD < c.length
  · rw [hash_file_large c h, sha256, List.length_append, List.length_take,
      List.length_drop]
    omega
  · rw [hash_file_small c (by omega), sha256]
    omega

theorem insertGrp_pair_sound {κ : Type} [DecidableEq κ]
    (P : κ → SFile → Prop) (acc : List (κ × List SFile)) (k0 : κ)
    (x : SFile) (hacc : ∀ p ∈ acc, ∀ y ∈ p.2, P p.1 y) (hx : P k0 x) :
    ∀ p ∈ insertGrp acc k0 x, ∀ y ∈ p.2, P p.1 y := by
  induction acc with
  | nil =>
    intro p hp y hy
    rw [insertGrp] at hp
    rcases List.mem_singleton.1 hp with rfl
    rcases List.mem_singleton.1 hy with rfl
    exact hx
  | cons e rest ih =>
    intro p hp y hy
    obtain ⟨k', g'⟩ := e
    rw [insertGrp] at hp
    by_cases hk : k' = k0
    · rw [if_pos hk] at hp
      rcases List.mem_cons.1 hp with rfl | hp2
      · rcases List.mem_append.1 hy with hy1 | hy2
        · exact hacc (k', g') (by simp) y hy1
        · rcases List.mem_singleton.1 hy2 with rfl
          exact hk.symm ▸ hx
      · exact hacc p (by simp [hp2]) y hy
    · rw [if_neg hk] at hp
      rcases List.mem_cons.1 hp with rfl | hp2
      · exact hacc (k', g') (by simp) y hy
      · exact ih (fun q hq => hacc q (by simp [hq])) p hp2 y hy

theorem setGrp_pair_sound {κ : Type} [DecidableEq κ]
    (P : κ → SFile → Prop) (acc : List (κ × List SFile)) (k0 : κ)
    (gnew : List SFile) (hacc : ∀ p ∈ acc, ∀ y ∈ p.2, P p.1 y)
    (hg : ∀ y ∈ gnew, P k0 y) :
    ∀ p ∈ setGrp acc k0 gnew, ∀ y ∈ p.2, P p.1 y := by
  induction acc with
  | nil =>
    intro p hp y hy
    rw [setGrp] at hp
    rcases List.mem_singleton.1 hp with rfl
    exact hg y hy
  | cons e rest ih =>
    intro p hp y hy
    obtain ⟨k', g'⟩ := e
    rw [setGrp] at hp
    by_cases hk : k' = k0
    · rw [if_pos hk] at hp
      rcases List.mem_cons.1 hp with rfl | hp2
      · exact hk.symm ▸ hg y hy
      · exact hacc p (by simp [hp2]) y hy
    · rw [if_neg hk] at hp
      rcases List.mem_cons.1 hp with rfl | hp2
      · exact hacc (k', g') (by simp) y hy
      · exact ih (fun q hq => hacc q (by simp [hq])) p hp2 y hy

theorem foldl_insert_pair_sound {κ : Type} [DecidableEq κ]
    (key : SFile → κ) (ys : List SFile) :
    ∀ (l : List SFile) (acc : List (κ × List SFile)),
      (∀ x ∈ l, x ∈ ys) →
      (∀ p ∈ acc, ∀ y ∈ p.2, key y = p.1 ∧ y ∈ ys) →
      ∀ p ∈ l.foldl (fun a x => insertGrp a (key x) x) acc,
        ∀ y ∈ p.2, key y = p.1 ∧ y ∈ ys := by
  intro l
  induction l with
  | nil => exact fun acc _ hacc => hacc
  | cons x rest ih =>
    intro acc hl hacc
    rw [List.foldl_cons]
    exact ih _ (fun z hz => hl z (by simp [hz]))
      (insertGrp_pair_sound (fun k y => key y = k ∧ y ∈ ys) acc (key x) x
        hacc ⟨rfl, hl x (by simp)⟩)

theorem groupByKey_pair_sound {κ : Type} [DecidableEq κ]
    (key : SFile → κ) (xs : List SFile)
    (p : κ × List SFile) (hp : p ∈ groupByKey key xs) (y : SFile)
    (hy : y ∈ p.2) : key y = p.1 ∧ y ∈ xs :=
  foldl_insert_pair_sound key xs xs [] (fun _ h => h) (by simp) p hp y hy

theorem walkFiles_sub (files : List SFile) :
    ∀ x ∈ walkFiles files, x ∈ files :=
  fun _ hx => (List.mem_filter.1 hx).1

theorem filesToHash_sub (files : List SFile) :
    ∀ x ∈ filesToHash files, x ∈ walkFiles files := by
  intro x hx
  rw [filesToHash] at hx
  rcases List.mem_flatten.1 hx with ⟨l, hl, hxl⟩
  rcases List.mem_map.1 hl with ⟨g, hg, rfl⟩
  exact (groupByKey_pair_sound (fun f => f.content.length)
    (walkFiles files) g (List.mem_filter.1 hg).1 x hxl).2

theorem headI_mem_of_one_lt (l : List SFile) (h : 1 < l.length) :
    l.headI ∈ l := by
  rcases l with _ | ⟨a, t⟩
  · simp at h
  · simp

theorem confirmStep_mem_rehashed
    (acc : List (List Nat × List SFile) × List SFile)
    (g : List Nat × List SFile) (f : SFile) :
    f ∈ (confirmStep acc g).2 ↔
      f ∈ acc.2 ∨ (f ∈ g.2 ∧ 1 < g.2.length ∧
        LARGE_FILE_THRESHOLD < g.2.headI.content.length) := by
  rw [confirmStep]
  by_cases h1 : 1 < g.2.length
  · rw [if_pos h1]
    by_cases h2 : LARGE_FILE_THRESHOLD < g.2.headI.content.length
    · rw [if_pos h2]
      show f ∈ acc.2 ++ g.2 ↔ _
      rw [List.mem_append]
      constructor
      · rintro (ha | hb)
        · exact Or.inl ha
        · exact Or.inr ⟨hb, h1, h2⟩
      · rintro (ha | ⟨hb, -, -⟩)
        · exact Or.inl ha
        · exact Or.inr hb
    · rw [if_neg h2]
      show f ∈ acc.2 ↔ _
      constructor
      · exact fun ha => Or.inl ha
      · rintro (ha | ⟨-, -, hc⟩)
        · exact ha
        · exact absurd hc h2
  · rw [if_neg h1]
    constructor
    · exact fun ha => Or.inl ha
    · rintro (ha | ⟨-, hlen, -⟩)
      · exact ha
      · exact absurd hlen h1

theorem foldl_confirm_mem_rehashed
    (gs : List (List Nat × List SFile)) :
    ∀ (acc : List (List Nat × List SFile) × List SFile) (f : SFile),
      f ∈ (gs.foldl confirmStep acc).2 ↔
        f ∈ acc.2 ∨ ∃ p ∈ gs, f ∈ p.2 ∧ 1 < p.2.length ∧
          LARGE_FILE_THRESHOLD < p.2.headI.content.length := by
  induction gs with
  | nil =>
    intro acc f
    simp
  | cons g rest ih =>
    intro acc f
    rw [List.foldl_cons, ih, confirmStep_mem_rehashed]
    constructor
    · rintro ((ha | hg2) | ⟨p, hp, hrest⟩)
      · exact Or.inl ha
      · exact Or.inr ⟨g, by simp, hg2⟩
      · exact Or.inr ⟨p, by simp [hp], hrest⟩
    · rintro (ha | ⟨p, hp, hrest⟩)
      · exact Or.inl (Or.inl ha)
      · rcases List.mem_cons.1 hp with rfl | hp2
        · exact Or.inl (Or.inr hrest)
        · exact Or.inr ⟨p, hp2, hrest⟩

theorem rehashed_mem_iff (files : List SFile) (f : SFile) :
    f ∈ rehashedFiles files ↔
      ∃ p ∈ partialGroups files, f ∈ p.2 ∧ 1 < p.2.length ∧
        LARGE_FILE_THRESHOLD < p.2.headI.content.length := by
  rw [rehashedFiles, foldl_confirm_mem_rehashed]
  simp

theorem sha256_id (c : List Nat) : sha256 c = c := rfl

theorem glookup_insertGrp_self {κ : Type} [DecidableEq κ]
    (acc : List (κ × List SFile)) (k : κ) (x : SFile) :
    glookup (insertGrp acc k x) k = glookup acc k ++ [x] := by
  induction acc with
  | nil => simp [insertGrp, glookup]
  | cons e rest ih =>
    obtain ⟨k0, g0⟩ := e
    rw [insertGrp]
    by_cases hk : k0 = k
    · rw [if_pos hk]
      simp only [glookup]
      rw [if_pos hk, if_pos hk]
    · rw [if_neg hk]
      simp only [glookup]
      rw [if_neg hk, if_neg hk]
      exact ih

theorem glookup_insertGrp_ne {κ : Type} [DecidableEq κ]
    (acc : List (κ × List SFile)) (k K : κ) (x : SFile) (h : K ≠ k) :
    glookup (insertGrp acc k x) K = glookup acc K := by
  induction acc with
  | nil =>
    rw [insertGrp]
    simp only [glookup]
    rw [if_neg (fun hh : k = K => h hh.symm)]
  | cons e rest ih =>
    obtain ⟨k0, g0⟩ := e
    rw [insertGrp]
    by_cases hk : k0 = k
    · rw [if_pos hk]
      simp only [glookup]
      have h2 : ¬k0 = K := fun hh => h (hh ▸ hk)
      rw [if_neg h2, if_neg h2]
    · rw [if_neg hk]
      simp only [glookup]
      by_cases h2 : k0 = K
      · rw [if_pos h2, if_pos h2]
      · rw [if_neg h2, if_neg h2]
        exact ih

theorem glookup_setGrp_self {κ : Type} [DecidableEq κ]
    (acc : List (κ × List SFile)) (k : κ) (g : List SFile) :
    glookup (setGrp acc k g) k = g := by
  induction acc with
  | nil => simp [setGrp, glookup]
  | cons e rest ih =>
    obtain ⟨k0, g0⟩ := e
    rw [setGrp]
    by_cases hk : k0 = k
    · rw [if_pos hk]
      simp only [glookup]
      rw [if_pos hk]
    · rw [if_neg hk]
      simp only [glookup]
      rw [if_neg hk]
      exact ih

theorem glookup_setGrp_ne {κ : Type} [DecidableEq κ]
    (acc : List (κ × List SFile)) (k K : κ) (g : List SFile) (h : K ≠ k) :
    glookup (setGrp acc k g) K = glookup acc K := by
  induction acc with
  | nil =>
    rw [setGrp]
    simp only [glookup]
    rw [if_neg (fun hh : k = K => h hh.symm)]
  | cons e rest ih =>
    obtain ⟨k0, g0⟩ := e
    rw [setGrp]
    by_cases hk : k0 = k
    · rw [if_pos hk]
      simp only [glookup]
      have h2 : ¬k0 = K := fun hh => h (hh ▸ hk)
      rw [if_neg h2, if_neg h2]
    · rw [if_neg hk]
      simp only [glookup]
      by_cases h2 : k0 = K
      · rw [if_pos h2, if_pos h2]
      · rw [if_neg h2, if_neg h2]
        exact ih

theorem glookup_insertGrp_mono {κ : Type} [DecidableEq κ]
    (acc : List (κ × List SFile)) (k K : κ) (x y : SFile)
    (hy : y ∈ glookup acc K) : y ∈ glookup (insertGrp acc k x) K := by
  by_cases hk : K = k
  · subst hk
    rw [glookup_insertGrp_self]
    exact List.mem_append_left _ hy
  · rw [glookup_insertGrp_ne acc k K x hk]
    exact hy

theorem glookup_foldl_insert_mono {κ : Type} [DecidableEq κ]
    (key : SFile → κ) (l : List SFile) :
    ∀ (acc : List (κ × List SFile)) (K : κ) (y : SFile),
      y ∈ glookup acc K →
      y ∈ glookup (l.foldl (fun a x => insertGrp a (key x) x) acc) K := by
  induction l with
  | nil => exact fun _ _ _ h => h
  | cons x rest ih =>
    intro acc K y hy
    rw [List.foldl_cons]
    exact ih _ K y (glookup_insertGrp_mono _ _ _ _ _ hy)

theorem mem_glookup_foldl {κ : Type} [DecidableEq κ] (key : SFile → κ)
    (l : List SFile) :
    ∀ (acc : List (κ × List SFile)) (x : SFile), x ∈ l →
      x ∈ glookup (l.foldl (fun a x => insertGrp a (key x) x) acc)
        (key x) := by
  induction l with
  | nil => intro acc x h; cases h
  | cons z rest ih =>
    intro acc x hx
    rw [List.foldl_cons]
    rcases List.mem_cons.1 hx with rfl | hx2
    · refine glookup_foldl_insert_mono key rest _ (key x) x ?_
      rw [glookup_insertGrp_self]
      exact List.mem_append_right _ (by simp)
    · exact ih _ x hx2

theorem glookup_mem {κ : Type} [DecidableEq κ]
    (acc : List (κ × List SFile)) (k : κ)
    (h : glookup acc k ≠ []) : (k, glookup acc k) ∈ acc := by
  induction acc with
  | nil => exact absurd rfl h
  | cons e rest ih =>
    obtain ⟨k0, g0⟩ := e
    simp only [glookup] at h ⊢
    by_cases h2 : k0 = k
    · rw [if_pos h2]
      subst h2
      exact List.mem_cons_self ..
    · rw [if_neg h2]
      rw [if_neg h2] at h
      exact List.mem_cons_of_mem _ (ih h)

theorem two_mem_one_lt (g : List SFile) (a b : SFile) (ha : a ∈ g)
    (hb : b ∈ g) (hne : a ≠ b) : 1 < g.length := by
  rcases g with _ | ⟨x, rest⟩
  · cases ha
  · rcases List.mem_cons.1 ha with rfl | ha2
    · rcases List.mem_cons.1 hb with rfl | hb2
      · exact absurd rfl hne
      · have := List.length_pos_of_mem hb2
        simp only [List.length_cons]
        omega
    · have := List.length_pos_of_mem ha2
      simp only [List.length_cons]
      omega

theorem insertGrp_keys_sub {κ : Type} [DecidableEq κ]
    (acc : List (κ × List SFile)) (k : κ) (x : SFile) :
    ∀ q ∈ insertGrp acc k x, q.1 ∈ acc.map Prod.fst ∨ q.1 = k := by
  induction acc with
  | nil =>
    intro q hq
    rcases List.mem_singleton.1 hq with rfl
    exact Or.inr rfl
  | cons e rest ih =>
    obtain ⟨k0, g0⟩ := e
    intro q hq
    rw [insertGrp] at hq
    by_cases hk : k0 = k
    · rw [if_pos hk] at hq
      rcases List.mem_cons.1 hq with rfl | hq2
      · exact Or.inl (by simp)
      · exact Or.inl (List.mem_cons_of_mem _ (List.mem_map_of_mem _ hq2))
    · rw [if_neg hk] at hq
      rcases List.mem_cons.1 hq with rfl | hq2
      · exact Or.inl (by simp)
      · rcases ih q hq2 with h1 | h2
        · exact Or.inl (List.mem_cons_of_mem _ h1)
        · exact Or.inr h2

theorem insertGrp_pairwise {κ : Type} [DecidableEq κ]
    (acc : List (κ × List SFile)) (k : κ) (x : SFile)
    (h : acc.Pairwise (fun p q => p.1 ≠ q.1)) :
    (insertGrp acc k x).Pairwise (fun p q => p.1 ≠ q.1) := by
  induction acc with
  | nil => simp [insertGrp]
  | cons e rest ih =>
    obtain ⟨k0, g0⟩ := e
    rw [List.pairwise_cons] at h
    rw [insertGrp]
    by_cases hk : k0 = k
    · rw [if_pos hk, List.pairwise_cons]
      exact ⟨fun q hq => h.1 q hq, h.2⟩
    · rw [if_neg hk, List.pairwise_cons]
      refine ⟨?_, ih h.2⟩
      intro q hq
      rcases insertGrp_keys_sub rest k x q hq with h1 | h2
      · rcases List.mem_map.1 h1 with ⟨q', hq', hqq⟩
        intro he
        exact h.1 q' hq' (by rw [he, ← hqq])
      · intro he
        exact hk (he.trans h2)

theorem foldl_insert_pairwise {κ : Type} [DecidableEq κ]
    (key : SFile → κ) (l : List SFile) :
    ∀ acc : List (κ × List SFile),
      acc.Pairwise (fun p q => p.1 ≠ q.1) →
      (l.foldl (fun a x => insertGrp a (key x) x) acc).Pairwise
        (fun p q => p.1 ≠ q.1) := by
  induction l with
  | nil => exact fun _ h => h
  | cons x rest ih =>
    intro acc hacc
    rw [List.foldl_cons]
    exact ih _ (insertGrp_pairwise acc (key x) x hacc)

theorem groupByKey_pairwise {κ : Type} [DecidableEq κ] (key : SFile → κ)
    (xs : List SFile) :
    (groupByKey key xs).Pairwise (fun p q => p.1 ≠ q.1) :=
  foldl_insert_pairwise key xs [] (by simp)

theorem foldl_fullinsert_pair_sound (files : List SFile)
    (l : List SFile) :
    ∀ acc1 : List (List Nat × List SFile),
      (∀ y ∈ l, y ∈ filesToHash files) →
      (∀ p ∈ acc1, ∀ y ∈ p.2, y ∈ filesToHash files ∧
        (p.1 = hash_file y.content false ∨
         p.1 = hash_file y.content true)) →
      ∀ p ∈ l.foldl
          (fun a f => insertGrp a (hash_file f.content false) f) acc1,
        ∀ y ∈ p.2, y ∈ filesToHash files ∧
          (p.1 = hash_file y.content false ∨
           p.1 = hash_file y.content true) := by
  induction l with
  | nil => exact fun acc1 _ h => h
  | cons f rest ih =>
    intro acc1 hl hacc
    rw [List.foldl_cons]
    exact ih _ (fun y hy => hl y (by simp [hy]))
      (insertGrp_pair_sound
        (fun k y => y ∈ filesToHash files ∧
          (k = hash_file y.content false ∨ k = hash_file y.content true))
        acc1 (hash_file f.content false) f hacc
        ⟨hl f (by simp), Or.inl rfl⟩)

theorem foldl_confirm_pair_sound (files : List SFile)
    (gs : List (List Nat × List SFile)) :
    ∀ acc : List (List Nat × List SFile) × List SFile,
      (∀ p ∈ gs, ∀ y ∈ p.2, hash_file y.content true = p.1 ∧
        y ∈ filesToHash files) →
      (∀ p ∈ acc.1, ∀ y ∈ p.2, y ∈ filesToHash files ∧
        (p.1 = hash_file y.content false ∨
         p.1 = hash_file y.content true)) →
      ∀ p ∈ (gs.foldl confirmStep acc).1, ∀ y ∈ p.2,
        y ∈ filesToHash files ∧
          (p.1 = hash_file y.content false ∨
           p.1 = hash_file y.content true) := by
  induction gs with
  | nil => exact fun acc _ h => h
  | cons g rest ih =>
    intro acc hgs hacc
    rw [List.foldl_cons]
    refine ih _ (fun p hp => hgs p (by simp [hp])) ?_
    show ∀ p ∈ (confirmStep acc g).1, _
    rw [confirmStep]
    by_cases h1 : 1 < g.2.length
    · rw [if_pos h1]
      by_cases h2 : LARGE_FILE_THRESHOLD < g.2.headI.content.length
      · rw [if_pos h2]
        exact foldl_fullinsert_pair_sound files g.2 acc.1
          (fun y hy => (hgs g (by simp) y hy).2) hacc
      · rw [if_neg h2]
        exact setGrp_pair_sound
          (fun k y => y ∈ filesToHash files ∧
            (k = hash_file y.content false ∨
             k = hash_file y.content true))
          acc.1 g.1 g.2 hacc
          (fun y hy => ⟨(hgs g (by simp) y hy).2,
            Or.inr (hgs g (by simp) y hy).1.symm⟩)
    · rw [if_neg h1]
      exact hacc

theorem finalHashes_pair_sound (files : List SFile) :
    ∀ p ∈ finalHashes files, ∀ y ∈ p.2, y ∈ filesToHash files ∧
      (p.1 = hash_file y.content false ∨
       p.1 = hash_file y.content true) := by
  rw [finalHashes]
  exact foldl_confirm_pair_sound files (partialGroups files) ([], [])
    (fun p hp y hy => groupByKey_pair_sound _ _ p hp y hy) (by simp)

theorem finalHashes_no_mixed (files : List SFile)
    (p : List Nat × List SFile) (hp : p ∈ finalHashes files)
    (c d : SFile) (hc : c ∈ p.2) (hd : d ∈ p.2)
    (hne : hash_file c.content true ≠ hash_file d.content true) :
    False := by
  have h1 := (finalHashes_pair_sound files p hp c hc).2
  have h2 := (finalHashes_pair_sound files p hp d hd).2
  rw [hash_file_full, sha256_id] at h1
  rw [hash_file_full, sha256_id] at h2
  rcases h1 with h1 | h1 <;> rcases h2 with h2 | h2
  · exact hne (congrArg (fun t => hash_file t true) (h1.symm.trans h2))
  · have hcl : c.content.length ≤ LARGE_FILE_THRESHOLD := by
      rw [h1.symm.trans h2]
      exact hash_file_partial_len _
    have hcc : hash_file c.content true = c.content := by
      rw [hash_file_small _ hcl, sha256_id]
    exact hne (hcc.trans (h1.symm.trans h2))
  · have hdl : d.content.length ≤ LARGE_FILE_THRESHOLD := by
      rw [h2.symm.trans h1]
      exact hash_file_partial_len _
    have hdd : hash_file d.content true = d.content := by
      rw [hash_file_small _ hdl, sha256_id]
    exact hne ((h1.symm.trans h2).trans hdd.symm)
  · exact hne (h1.symm.trans h2)

theorem filesToHash_complete (files : List SFile) (a b : SFile)
    (ha : a ∈ walkFiles files) (hb : b ∈ walkFiles files) (hne : a ≠ b)
    (hsz : a.content.length = b.content.length) :
    a ∈ filesToHash files ∧ b ∈ filesToHash files := by
  have haG : a ∈ glookup (sizeGroups files) a.content.length :=
    mem_glookup_foldl (fun f => f.content.length) (walkFiles files) [] a ha
  have hbG : b ∈ glookup (sizeGroups files) a.content.length := by
    rw [hsz]
    exact mem_glookup_foldl (fun f => f.content.length)
      (walkFiles files) [] b hb
  have hpair : (a.content.length,
      glookup (sizeGroups files) a.content.length) ∈ sizeGroups files :=
    glookup_mem _ _ (List.ne_nil_of_mem haG)
  have hlen : 1 < (glookup (sizeGroups files) a.content.length).length :=
    two_mem_one_lt _ a b haG hbG hne
  have hfil : (a.content.length,
      glookup (sizeGroups files) a.content.length) ∈
      (sizeGroups files).filter (fun g => 1 < g.2.length) :=
    List.mem_filter.2 ⟨hpair, by simpa using hlen⟩
  constructor
  · exact List.mem_flatten.2 ⟨_, List.mem_map.2 ⟨_, hfil, rfl⟩, haG⟩
  · exact List.mem_flatten.2 ⟨_, List.mem_map.2 ⟨_, hfil, rfl⟩, hbG⟩

theorem glookup_confirm_fold_stable
    (gs : List (List Nat × List SFile)) (K pa aC : List Nat)
    (hpaC : pa = hash_file aC true) (hK : K = pa ∨ K = aC) :
    ∀ acc : List (List Nat × List SFile) × List SFile,
      (∀ p ∈ gs, (∀ y ∈ p.2, hash_file y.content true = p.1) ∧
        p.1 ≠ pa) →
      ∀ y, y ∈ glookup acc.1 K →
        y ∈ glookup (gs.foldl confirmStep acc).1 K := by
  induction gs with
  | nil => exact fun _ _ y hy => hy
  | cons g rest ih =>
    intro acc hgs y hy
    rw [List.foldl_cons]
    refine ih _ (fun p hp => hgs p (by simp [hp])) y ?_
    show y ∈ glookup (confirmStep acc g).1 K
    rw [confirmStep]
    by_cases h1 : 1 < g.2.length
    · rw [if_pos h1]
      by_cases h2 : LARGE_FILE_THRESHOLD < g.2.headI.content.length
      · rw [if_pos h2]
        exact glookup_foldl_insert_mono
          (fun f => hash_file f.content false) g.2 acc.1 K y hy
      · rw [if_neg h2]
        have hkne : K ≠ g.1 := by
          rcases hK with hKp | hKa
          · exact fun he => (hgs g (by simp)).2 (hKp ▸ he).symm
          · intro he
            have hh := (hgs g (by simp)).1 g.2.headI
              (headI_mem_of_one_lt _ h1)
            have hsm : g.2.headI.content.length ≤ LARGE_FILE_THRESHOLD :=
              by omega
            rw [hash_file_small _ hsm, sha256_id] at hh
            have haCh : aC = g.2.headI.content :=
              (he.symm.trans hKa).symm.trans hh.symm
            refine (hgs g (by simp)).2 ?_
            rw [hpaC, haCh, hash_file_small _ hsm, sha256_id]
            exact hh.symm
        show y ∈ glookup (setGrp acc.1 g.1 g.2) K
        rw [glookup_setGrp_ne acc.1 g.1 K g.2 hkne]
        exact hy
    · rw [if_neg h1]
      exact hy

theorem co_group_finish (files : List SFile) (a b : SFile) (K : List Nat)
    (hA : a ∈ glookup (finalHashes files) K)
    (hB : b ∈ glookup (finalHashes files) K) (hne : a ≠ b) :
    ∃ G ∈ (find_duplicates files).1.duplicates,
      a ∈ G.files ∧ b ∈ G.files ∧ 2 ≤ G.count := by
  have hmemfin : (K, glookup (finalHashes files) K) ∈ finalHashes files :=
    glookup_mem _ _ (List.ne_nil_of_mem hA)
  have hlen : 1 < (glookup (finalHashes files) K).length :=
    two_mem_one_lt _ a b hA hB hne
  have hdup : (K, glookup (finalHashes files) K) ∈ duplicateGroups files :=
    List.mem_filter.2 ⟨hmemfin, by simpa using hlen⟩
  have hne0 : ¬(duplicateGroups files).length = 0 := by
    intro h0
    rw [List.length_eq_zero] at h0
    rw [h0] at hdup
    cases hdup
  rw [find_duplicates, if_neg hne0]
  exact ⟨_, List.mem_map.2 ⟨(K, glookup (finalHashes files) K), hdup, rfl⟩,
    hA, hB, hlen⟩

/-- Core co-grouping fact of the scan: two distinct candidates with the
same partial digest end up together in one confirmed duplicate group,
provided either their contents are equal (so full re-hashing keeps them
together) or their partial-digest group's first member is not above the
threshold (so the group is assigned wholesale). -/
theorem scan_co_group (files : List SFile) (a b : SFile)
    (ha : a ∈ filesToHash files) (hb : b ∈ filesToHash files)
    (hne : a ≠ b)
    (hkey : hash_file a.content true = hash_file b.content true)
    (hcase : a.content = b.content ∨
      ¬LARGE_FILE_THRESHOLD <
        (glookup (partialGroups files)
          (hash_file a.content true)).headI.content.length) :
    ∃ G ∈ (find_duplicates files).1.duplicates,
      a ∈ G.files ∧ b ∈ G.files ∧ 2 ≤ G.count := by
  have haG : a ∈ glookup (partialGroups files)
      (hash_file a.content true) :=
    mem_glookup_foldl (fun f => hash_file f.content true)
      (filesToHash files) [] a ha
  have hbG : b ∈ glookup (partialGroups files)
      (hash_file a.content true) := by
    rw [hkey]
    exact mem_glookup_foldl (fun f => hash_file f.content true)
      (filesToHash files) [] b hb
  have hpair : (hash_file a.content true,
      glookup (partialGroups files) (hash_file a.content true)) ∈
      partialGroups files :=
    glookup_mem _ _ (List.ne_nil_of_mem haG)
  have h1 : 1 < (glookup (partialGroups files)
      (hash_file a.content true)).length :=
    two_mem_one_lt _ a b haG hbG hne
  obtain ⟨pre, post, hsplit⟩ := List.append_of_mem hpair
  have hnd : (partialGroups files).Pairwise (fun p q => p.1 ≠ q.1) :=
    groupByKey_pairwise (fun f => hash_file f.content true)
      (filesToHash files)
  rw [hsplit, List.pairwise_append] at hnd
  have hndpost := (List.pairwise_cons.1 hnd.2.1).1
  have hpost : ∀ p ∈ post,
      (∀ y ∈ p.2, hash_file y.content true = p.1) ∧
      p.1 ≠ hash_file a.content true := by
    intro p hp
    refine ⟨fun y hy => (groupByKey_pair_sound
      (fun f => hash_file f.content true) (filesToHash files) p
      (by show p ∈ partialGroups files
          rw [hsplit]
          exact List.mem_append_right _ (List.mem_cons_of_mem _ hp))
      y hy).1, ?_⟩
    exact fun he => (hndpost p hp) he.symm
  have hfin : finalHashes files =
      (post.foldl confirmStep
        (confirmStep (pre.foldl confirmStep ([], []))
          (hash_file a.content true,
           glookup (partialGroups files)
             (hash_file a.content true)))).1 := by
    rw [finalHashes, hsplit, List.foldl_append, List.foldl_cons, ← hsplit]
  by_cases hbig : LARGE_FILE_THRESHOLD <
      (glookup (partialGroups files)
        (hash_file a.content true)).headI.content.length
  · have hcont : a.content = b.content := by
      rcases hcase with h | h
      · exact h
      · exact absurd hbig h
    have hestA : a ∈ glookup (confirmStep
        (pre.foldl confirmStep ([], []))
        (hash_file a.content true,
         glookup (partialGroups files)
           (hash_file a.content true))).1 a.content := by
      rw [confirmStep, if_pos h1, if_pos hbig]
      have := mem_glookup_foldl (fun f => hash_file f.content false)
        (glookup (partialGroups files) (hash_file a.content true))
        (pre.foldl confirmStep ([], [])).1 a haG
      beta_reduce at this
      rwa [hash_file_full, sha256_id] at this
    have hestB : b ∈ glookup (confirmStep
        (pre.foldl confirmStep ([], []))
        (hash_file a.content true,
         glookup (partialGroups files)
           (hash_file a.content true))).1 a.content := by
      rw [confirmStep, if_pos h1, if_pos hbig]
      have := mem_glookup_foldl (fun f => hash_file f.content false)
        (glookup (partialGroups files) (hash_file a.content true))
        (pre.foldl confirmStep ([], [])).1 b hbG
      beta_reduce at this
      rw [hash_file_full, sha256_id] at this
      rwa [← hcont] at this
    have hstabA := glookup_confirm_fold_stable post a.content
      (hash_file a.content true) a.content rfl (Or.inr rfl) _ hpost
      a hestA
    have hstabB := glookup_confirm_fold_stable post a.content
      (hash_file a.content true) a.content rfl (Or.inr rfl) _ hpost
      b hestB
    rw [← hfin] at hstabA hstabB
    exact co_group_finish files a b a.content hstabA hstabB hne
  · have hestA : a ∈ glookup (confirmStep
        (pre.foldl confirmStep ([], []))
        (hash_file a.content true,
         glookup (partialGroups files)
           (hash_file a.content true))).1 (hash_file a.content true) := by
      rw [confirmStep, if_pos h1, if_neg hbig]
      show a ∈ glookup (setGrp (pre.foldl confirmStep ([], [])).1
        (hash_file a.content true)
        (glookup (partialGroups files) (hash_file a.content true)))
        (hash_file a.content true)
      rw [glookup_setGrp_self]
      exact haG
    have hestB : b ∈ glookup (confirmStep
        (pre.foldl confirmStep ([], []))
        (hash_file a.content true,
         glookup (partialGroups files)
           (hash_file a.content true))).1 (hash_file a.content true) := by
      rw [confirmStep, if_pos h1, if_neg hbig]
      show b ∈ glookup (setGrp (pre.foldl confirmStep ([], [])).1
        (hash_file a.content true)
        (glookup (partialGroups files) (hash_file a.content true)))
        (hash_file a.content true)
      rw [glookup_setGrp_self]
      exact hbG
    have hstabA := glookup_confirm_fold_stable post
      (hash_file a.content true) (hash_file a.content true) a.content
      rfl (Or.inl rfl) _ hpost a hestA
    have hstabB := glookup_confirm_fold_stable post
      (hash_file a.content true) (hash_file a.content true) a.content
      rfl (Or.inl rfl) _ hpost b hestB
    rw [← hfin] at hstabA hstabB
    exact co_group_finish files a b (hash_file a.content true)
      hstabA hstabB hne

/-- No reported duplicate group mixes two files with different partial
digests. -/
theorem result_no_mixed (files : List SFile) (G : DupGroup) (c d : SFile)
    (hG : G ∈ (find_duplicates files).1.duplicates) (hc : c ∈ G.files)
    (hd : d ∈ G.files)
    (hnep : hash_file c.content true ≠ hash_file d.content true) :
    False := by
  by_cases h0 : (duplicateGroups files).length = 0
  · rw [find_duplicates, if_pos h0] at hG
    exact (List.not_mem_nil G) hG
  · rw [find_duplicates, if_neg h0] at hG
    rcases List.mem_map.1 hG with ⟨p, hp, rfl⟩
    exact finalHashes_no_mixed files p (List.mem_filter.1 hp).1 c d
      hc hd hnep

/-- **C4.** (amended) Duplicate-detection determinism as the code
implements it: any two distinct walked files with identical byte
content are placed together in one confirmed duplicate group of size at
least two; and no duplicate group ever contains two files whose
partial digests differ — in particular a same-size differing pair
whose sizes are at most the large-file threshold is never co-grouped.
(A same-size differing pair strictly above the threshold that shares
its 1 MiB head and tail windows can be co-grouped with a sub-threshold
file whose content equals that window — see the counterexample.) -/
theorem c4_duplicate_detection_amended :
    (∀ (files : List SFile) (a b : SFile),
        a ∈ walkFiles files → b ∈ walkFiles files → a ≠ b →
        a.content = b.content →
        ∃ G ∈ (find_duplicates files).1.duplicates,
          a ∈ G.files ∧ b ∈ G.files ∧ 2 ≤ G.count) ∧
    (∀ (files : List SFile) (G : DupGroup) (c d : SFile),
        G ∈ (find_duplicates files).1.duplicates → c ∈ G.files →
        d ∈ G.files →
        hash_file c.content true ≠ hash_file d.content true → False) ∧
    (∀ (files : List SFile) (G : DupGroup) (c d : SFile),
        G ∈ (find_duplicates files).1.duplicates → c ∈ G.files →
        d ∈ G.files → c.content.length ≤ LARGE_FILE_THRESHOLD →
        d.content.length ≤ LARGE_FILE_THRESHOLD →
        c.content ≠ d.content → False) := by
  refine ⟨?_, result_no_mixed, ?_⟩
  · intro files a b ha hb hne hcont
    obtain ⟨hfa, hfb⟩ := filesToHash_complete files a b ha hb hne
      (by rw [hcont])
    exact scan_co_group files a b hfa hfb hne (by rw [hcont])
      (Or.inl hcont)
  · intro files G c d hG hc hd hcl hdl hcd
    refine result_no_mixed files G c d hG hc hd ?_
    rw [hash_file_small _ hcl, hash_file_small _ hdl, sha256_id,
      sha256_id]
    exact hcd

/-- Witness for C4 (amended) at a concrete input: two one-byte
identical files. -/
theorem c4_duplicate_detection_amended_witness :
    SFile.mk "a" [1] ∈ walkFiles [⟨"a", [1]⟩, ⟨"b", [1]⟩] ∧
    SFile.mk "b" [1] ∈ walkFiles [⟨"a", [1]⟩, ⟨"b", [1]⟩] ∧
    SFile.mk "a" [1] ≠ SFile.mk "b" [1] ∧
    ∃ G ∈ (find_duplicates [⟨"a", [1]⟩, ⟨"b", [1]⟩]).1.duplicates,
      SFile.mk "a" [1] ∈ G.files ∧ SFile.mk "b" [1] ∈ G.files ∧
      2 ≤ G.count :=
  ⟨by decide, by decide, by decide,
   c4_duplicate_detection_amended.1 [⟨"a", [1]⟩, ⟨"b", [1]⟩]
     ⟨"a", [1]⟩ ⟨"b", [1]⟩ (by decide) (by decide) (by decide) rfl⟩

set_option maxRecDepth 4000 in
/-- **C4 counterexample.** The scenario tree `cexTree` contains an
identical pair (`u1.bin`, `u2.bin`) and a same-size pair with
differing bytes (`c1.bin`, `d1.bin`, each one byte over the 100 MiB
threshold, sharing their 1 MiB head and tail windows).  Because the
2 MiB file `e1.bin` has exactly the pair's partial-window content and
is walked first, its partial-digest group `[e1, c1, d1]` has a
below-threshold first member, so step 4 assigns the whole group
without full re-hashing — and the differing pair lands together in a
confirmed duplicate group, refuting `no false positives reach the
result`. -/
theorem c4_duplicate_detection_counterexample :
    (SFile.mk "u1.bin" [7] ∈ cexTree ∧ SFile.mk "u2.bin" [7] ∈ cexTree ∧
     (SFile.mk "u1.bin" [7]).content = (SFile.mk "u2.bin" [7]).content ∧
     SFile.mk "u1.bin" [7] ≠ SFile.mk "u2.bin" [7]) ∧
    (SFile.mk "c1.bin" cexBigC ∈ cexTree ∧
     SFile.mk "d1.bin" cexBigD ∈ cexTree ∧
     cexBigC.length = cexBigD.length ∧ cexBigC ≠ cexBigD) ∧
    ∃ G ∈ (find_duplicates cexTree).1.duplicates,
      SFile.mk "c1.bin" cexBigC ∈ G.files ∧
      SFile.mk "d1.bin" cexBigD ∈ G.files := by
  have hT : LARGE_FILE_THRESHOLD = 104857600 := rfl
  have hP : PARTIAL_HASH_SIZE = 1048576 := rfl
  have hM : cexMid = 102760449 := by rw [cexMid, hT, hP]
  have hlW : cexWindow.length = 2097152 := by
    rw [cexWindow, List.length_replicate, hP]
  have hlO : cexOther.length = 2097152 := by
    rw [cexOther, List.length_replicate, hP]
  have hlC : cexBigC.length = 104857601 := by
    rw [cexBigC, List.length_append, List.length_append,
      List.length_replicate, List.length_replicate]
    omega
  have hlD : cexBigD.length = 104857601 := by
    rw [cexBigD, List.length_append, List.length_append,
      List.length_replicate, List.length_replicate]
    omega
  have hmid : ∀ x : Nat,
      (((List.replicate PARTIAL_HASH_SIZE 0 ++ List.replicate cexMid x ++
        List.replicate PARTIAL_HASH_SIZE 0).drop
          PARTIAL_HASH_SIZE).take cexMid) = List.replicate cexMid x := by
    intro x
    rw [List.append_assoc,
      List.drop_left' (List.length_replicate ..),
      List.take_left' (List.length_replicate ..)]
  have hCD : cexBigC ≠ cexBigD := by
    intro h
    have h2 := congrArg
      (fun l => (l.drop PARTIAL_HASH_SIZE).take cexMid) h
    beta_reduce at h2
    rw [cexBigC, cexBigD, hmid 1, hmid 2] at h2
    have h3 := List.replicate_right_injective
      (show cexMid ≠ 0 by omega) h2
    omega
  have hwin : ∀ x : Nat,
      hash_file (List.replicate PARTIAL_HASH_SIZE 0 ++
        List.replicate cexMid x ++
        List.replicate PARTIAL_HASH_SIZE 0) true = cexWindow := by
    intro x
    have hlen : (List.replicate PARTIAL_HASH_SIZE 0 ++
        List.replicate cexMid x ++
        List.replicate PARTIAL_HASH_SIZE 0).length = 104857601 := by
      rw [List.length_append, List.length_append,
        List.length_replicate, List.length_replicate]
      omega
    rw [hash_file_large _ (by omega), sha256_id, hlen]
    rw [List.append_assoc]
    rw [List.take_left' (by rw [List.length_replicate, hP])]
    have hdroplen : (List.replicate PARTIAL_HASH_SIZE (0 : Nat) ++
        List.replicate cexMid x).length = 104857601 - 1048576 := by
      rw [List.length_append, List.length_replicate,
        List.length_replicate]
      omega
    rw [← List.append_assoc,
      List.drop_left' (by rw [hdroplen, hP]),
      cexWindow, two_mul, List.replicate_add]
  have hpC : hash_file cexBigC true = cexWindow := hwin 1
  have hpD : hash_file cexBigD true = cexWindow := hwin 2
  have hpU : hash_file [7] true = [7] := by decide
  have hpE : hash_file cexWindow true = cexWindow := by
    rw [hash_file_small _ (by omega), sha256_id]
  have hpO : hash_file cexOther true = cexOther := by
    rw [hash_file_small _ (by omega), sha256_id]
  have hneUW : ¬(([7] : List Nat) = cexWindow) := by
    intro h
    have := congrArg List.length h
    simp only [List.length_cons, List.length_nil, hlW] at this
    omega
  have hneUO : ¬(([7] : List Nat) = cexOther) := by
    intro h
    have := congrArg List.length h
    simp only [List.length_cons, List.length_nil, hlO] at this
    omega
  have hneWO : ¬(cexWindow = cexOther) := by
    intro h
    rw [cexWindow, cexOther] at h
    have h3 := List.replicate_right_injective
      (show 2 * PARTIAL_HASH_SIZE ≠ 0 by omega) h
    omega
  have hwalk : walkFiles cexTree = cexTree := rfl
  have hsz : sizeGroups cexTree =
      [(1, [⟨"u1.bin", [7]⟩, ⟨"u2.bin", [7]⟩]),
       (2097152, [⟨"e1.bin", cexWindow⟩, ⟨"e2.bin", cexOther⟩]),
       (104857601, [⟨"c1.bin", cexBigC⟩, ⟨"d1.bin", cexBigD⟩])] := by
    show groupByKey (fun f => f.content.length) (walkFiles cexTree) = _
    rw [hwalk, groupByKey, cexTree]
    have k1 : (SFile.mk "u1.bin" [7]).content.length = 1 := rfl
    have k2 : (SFile.mk "u2.bin" [7]).content.length = 1 := rfl
    have k3 : (SFile.mk "e1.bin" cexWindow).content.length = 2097152 :=
      hlW
    have k4 : (SFile.mk "e2.bin" cexOther).content.length = 2097152 :=
      hlO
    have k5 : (SFile.mk "c1.bin" cexBigC).content.length = 104857601 :=
      hlC
    have k6 : (SFile.mk "d1.bin" cexBigD).content.length = 104857601 :=
      hlD
    simp only [List.foldl_cons, List.foldl_nil, k1, k2, k3, k4, k5, k6]
    simp [insertGrp]
  have hfth : filesToHash cexTree = cexTree := by
    show (((sizeGroups cexTree).filter (fun g => 1 < g.2.length)).map
      (fun g => g.2)).flatten = cexTree
    rw [hsz, cexTree]
    rfl
  have hglk : glookup (partialGroups cexTree) cexWindow =
      [⟨"e1.bin", cexWindow⟩, ⟨"c1.bin", cexBigC⟩,
       ⟨"d1.bin", cexBigD⟩] := by
    show glookup (groupByKey (fun f => hash_file f.content true)
      (filesToHash cexTree)) cexWindow = _
    rw [hfth, groupByKey, cexTree]
    have kk1 : hash_file (SFile.mk "u1.bin" [7]).content true = [7] :=
      hpU
    have kk2 : hash_file (SFile.mk "u2.bin" [7]).content true = [7] :=
      hpU
    have kk3 : hash_file (SFile.mk "e1.bin" cexWindow).content true =
        cexWindow := hpE
    have kk4 : hash_file (SFile.mk "e2.bin" cexOther).content true =
        cexOther := hpO
    have kk5 : hash_file (SFile.mk "c1.bin" cexBigC).content true =
        cexWindow := hpC
    have kk6 : hash_file (SFile.mk "d1.bin" cexBigD).content true =
        cexWindow := hpD
    simp only [List.foldl_cons, List.foldl_nil, kk1, kk2, kk3, kk4, kk5,
      kk6]
    have e2s : insertGrp [(([7] : List Nat), [SFile.mk "u1.bin" [7]])]
        ([7] : List Nat) (SFile.mk "u2.bin" [7]) =
        [([7], [SFile.mk "u1.bin" [7], SFile.mk "u2.bin" [7]])] := by
      rw [insertGrp, if_pos rfl]
      rfl
    have e3s : insertGrp
        [(([7] : List Nat),
          [SFile.mk "u1.bin" [7], SFile.mk "u2.bin" [7]])]
        cexWindow (SFile.mk "e1.bin" cexWindow) =
        [([7], [SFile.mk "u1.bin" [7], SFile.mk "u2.bin" [7]]),
         (cexWindow, [SFile.mk "e1.bin" cexWindow])] := by
      rw [insertGrp, if_neg hneUW]
      rfl
    have e4s : insertGrp
        [(([7] : List Nat),
          [SFile.mk "u1.bin" [7], SFile.mk "u2.bin" [7]]),
         (cexWindow, [SFile.mk "e1.bin" cexWindow])]
        cexOther (SFile.mk "e2.bin" cexOther) =
        [([7], [SFile.mk "u1.bin" [7], SFile.mk "u2.bin" [7]]),
         (cexWindow, [SFile.mk "e1.bin" cexWindow]),
         (cexOther, [SFile.mk "e2.bin" cexOther])] := by
      rw [insertGrp, if_neg hneUO, insertGrp, if_neg hneWO]
      rfl
    have e5s : insertGrp
        [(([7] : List Nat),
          [SFile.mk "u1.bin" [7], SFile.mk "u2.bin" [7]]),
         (cexWindow, [SFile.mk "e1.bin" cexWindow]),
         (cexOther, [SFile.mk "e2.bin" cexOther])]
        cexWindow (SFile.mk "c1.bin" cexBigC) =
        [([7], [SFile.mk "u1.bin" [7], SFile.mk "u2.bin" [7]]),
         (cexWindow,
          [SFile.mk "e1.bin" cexWindow, SFile.mk "c1.bin" cexBigC]),
         (cexOther, [SFile.mk "e2.bin" cexOther])] := by
      rw [insertGrp, if_neg hneUW, insertGrp, if_pos rfl]
      rfl
    have e6s : insertGrp
        [(([7] : List Nat),
          [SFile.mk "u1.bin" [7], SFile.mk "u2.bin" [7]]),
         (cexWindow,
          [SFile.mk "e1.bin" cexWindow, SFile.mk "c1.bin" cexBigC]),
         (cexOther, [SFile.mk "e2.bin" cexOther])]
        cexWindow (SFile.mk "d1.bin" cexBigD) =
        [([7], [SFile.mk "u1.bin" [7], SFile.mk "u2.bin" [7]]),
         (cexWindow,
          [SFile.mk "e1.bin" cexWindow, SFile.mk "c1.bin" cexBigC,
           SFile.mk "d1.bin" cexBigD]),
         (cexOther, [SFile.mk "e2.bin" cexOther])] := by
      rw [insertGrp, if_neg hneUW, insertGrp, if_pos rfl]
      rfl
    rw [show insertGrp ([] : List (List Nat × List SFile))
        ([7] : List Nat) (SFile.mk "u1.bin" [7]) =
        [([7], [SFile.mk "u1.bin" [7]])] from rfl]
    rw [e2s, e3s, e4s, e5s, e6s]
    rw [glookup, if_neg hneUW, glookup, if_pos rfl]
  have hcmem : SFile.mk "c1.bin" cexBigC ∈ cexTree := by
    rw [cexTree]
    exact List.mem_cons_of_mem _ (List.mem_cons_of_mem _
      (List.mem_cons_of_mem _ (List.mem_cons_of_mem _
        (List.mem_cons_self ..))))
  have hdmem : SFile.mk "d1.bin" cexBigD ∈ cexTree := by
    rw [cexTree]
    exact List.mem_cons_of_mem _ (List.mem_cons_of_mem _
      (List.mem_cons_of_mem _ (List.mem_cons_of_mem _
        (List.mem_cons_of_mem _ (List.mem_cons_self ..)))))
  have hcw : SFile.mk "c1.bin" cexBigC ∈ walkFiles cexTree := by
    rw [hwalk]
    exact hcmem
  have hdw : SFile.mk "d1.bin" cexBigD ∈ walkFiles cexTree := by
    rw [hwalk]
    exact hdmem
  have hcdne : SFile.mk "c1.bin" cexBigC ≠ SFile.mk "d1.bin" cexBigD :=
    fun h => absurd (congrArg SFile.path h) (by decide)
  obtain ⟨hfc, hfd⟩ := filesToHash_complete cexTree
    (SFile.mk "c1.bin" cexBigC) (SFile.mk "d1.bin" cexBigD) hcw hdw
    hcdne (by show cexBigC.length = cexBigD.length; rw [hlC, hlD])
  have hco := scan_co_group cexTree (SFile.mk "c1.bin" cexBigC)
    (SFile.mk "d1.bin" cexBigD) hfc hfd hcdne
    (by show hash_file cexBigC true = hash_file cexBigD true
        rw [hpC, hpD])
    (Or.inr (by
      show ¬LARGE_FILE_THRESHOLD <
        (glookup (partialGroups cexTree)
          (hash_file cexBigC true)).headI.content.length
      rw [hpC, hglk]
      simp only [List.headI_cons]
      show ¬LARGE_FILE_THRESHOLD < cexWindow.length
      omega))
  refine ⟨⟨by rw [cexTree]; exact List.mem_cons_self ..,
           by rw [cexTree]
              exact List.mem_cons_of_mem _ (List.mem_cons_self ..),
           rfl,
           fun h => absurd (congrArg SFile.path h) (by decide)⟩,
          ⟨hcmem, hdmem, by rw [hlC, hlD], hCD⟩, ?_⟩
  obtain ⟨G, hG, hcG, hdG, -⟩ := hco
  exact ⟨G, hG, hcG, hdG⟩

theorem foldl_confirm_keep_key (gs : List (List Nat × List SFile))
    (K : List Nat) :
    ∀ acc : List (List Nat × List SFile) × List SFile,
      (∀ h ∈ gs, 1 < h.2.length →
        ¬LARGE_FILE_THRESHOLD < h.2.headI.content.length → h.1 ≠ K) →
      ∀ y, y ∈ glookup acc.1 K →
        y ∈ glookup (gs.foldl confirmStep acc).1 K := by
  induction gs with
  | nil => exact fun _ _ y hy => hy
  | cons g rest ih =>
    intro acc hgs y hy
    rw [List.foldl_cons]
    refine ih _ (fun h hh => hgs h (List.mem_cons_of_mem _ hh)) y ?_
    rw [confirmStep]
    by_cases h1 : 1 < g.2.length
    · rw [if_pos h1]
      by_cases h2 : LARGE_FILE_THRESHOLD < g.2.headI.content.length
      · rw [if_pos h2]
        exact glookup_foldl_insert_mono
          (fun f => hash_file f.content false) g.2 acc.1 K y hy
      · rw [if_neg h2]
        show y ∈ glookup (setGrp acc.1 g.1 g.2) K
        have hne := hgs g (List.mem_cons_self ..) h1 h2
        rw [glookup_setGrp_ne acc.1 g.1 K g.2 (fun hk => hne hk.symm)]
        exact hy
    · rw [if_neg h1]
      exact hy

theorem rehashed_full_key (files : List SFile) (f : SFile)
    (hf : f ∈ rehashedFiles files) :
    ∃ g ∈ finalHashes files, g.1 = hash_file f.content false ∧
      f ∈ g.2 := by
  obtain ⟨p, hp, hfp, hlen, hbig⟩ := (rehashed_mem_iff files f).1 hf
  obtain ⟨l1, l2, hsplit⟩ := List.append_of_mem hp
  have hKfull : hash_file f.content false = f.content := by
    rw [hash_file_full, sha256_id]
  have hfsound := (groupByKey_pair_sound
    (fun f => hash_file f.content true) (filesToHash files) p hp f
    hfp).1
  have hcond : ∀ h ∈ l2, 1 < h.2.length →
      ¬LARGE_FILE_THRESHOLD < h.2.headI.content.length →
      h.1 ≠ hash_file f.content false := by
    intro h hh hlen2 hsml hcontra
    have hhmem : h ∈ partialGroups files := by
      rw [hsplit]
      exact List.mem_append_right _ (List.mem_cons_of_mem _ hh)
    have hhead : h.2.headI ∈ h.2 := headI_mem_of_one_lt h.2 hlen2
    have hsound := (groupByKey_pair_sound
      (fun f => hash_file f.content true) (filesToHash files) h hhmem
      h.2.headI hhead).1
    have hklen : h.1.length ≤ LARGE_FILE_THRESHOLD := by
      rw [← hsound]
      exact hash_file_partial_len _
    by_cases hfl : LARGE_FILE_THRESHOLD < f.content.length
    · rw [hKfull] at hcontra
      rw [hcontra] at hklen
      omega
    · have hpk : p.1 = hash_file f.content false := by
        rw [← hfsound, hKfull, hash_file_small _ (by omega), sha256_id]
      have hpw : (partialGroups files).Pairwise (fun a b => a.1 ≠ b.1) :=
        groupByKey_pairwise _ _
      rw [hsplit] at hpw
      have h3 := (List.pairwise_cons.1
        (List.pairwise_append.1 hpw).2.1).1 h hh
      exact h3 (hpk.trans hcontra.symm)
  have hstep : f ∈ glookup ((l2.foldl confirmStep
      (confirmStep (l1.foldl confirmStep ([], [])) p)).1)
      (hash_file f.content false) := by
    apply foldl_confirm_keep_key l2 _ _ hcond
    rw [confirmStep, if_pos hlen, if_pos hbig]
    show f ∈ glookup (p.2.foldl
      (fun a x => insertGrp a (hash_file x.content false) x)
      (l1.foldl confirmStep ([], [])).1) (hash_file f.content false)
    exact mem_glookup_foldl (fun x => hash_file x.content false) p.2 _
      f hfp
  have hfin : f ∈ glookup (finalHashes files)
      (hash_file f.content false) := by
    rw [finalHashes, hsplit, List.foldl_append, List.foldl_cons]
    exact hstep
  exact ⟨(hash_file f.content false,
      glookup (finalHashes files) (hash_file f.content false)),
    glookup_mem _ _ (List.ne_nil_of_mem hfin), rfl, hfin⟩

/-- **C5 counterexample.** At the 100 MiB boundary the claim fails
twice.  A file of size exactly `LARGE_FILE_THRESHOLD` (a size-matched
candidate at the threshold) is hashed in full, not over its first and
last 1 MiB — `hash_file` uses a strict `>` comparison.  Consequently,
in a tree with two size-matched files of exactly the threshold size —
which share the same size and the same partial digest and are at the
threshold — no file is ever re-hashed in full: the group's first
member is not strictly larger than the threshold. -/
theorem c5_two_phase_hashing_counterexample :
    hash_file (List.replicate LARGE_FILE_THRESHOLD 0) true =
      sha256 (List.replicate LARGE_FILE_THRESHOLD 0) ∧
    hash_file (List.replicate LARGE_FILE_THRESHOLD 0) true ≠
      sha256 ((List.replicate LARGE_FILE_THRESHOLD 0).take
          PARTIAL_HASH_SIZE ++
        (List.replicate LARGE_FILE_THRESHOLD 0).drop
          (LARGE_FILE_THRESHOLD - PARTIAL_HASH_SIZE)) ∧
    (SFile.mk "x" (List.replicate LARGE_FILE_THRESHOLD 0)).content.length =
      LARGE_FILE_THRESHOLD ∧
    hash_file
        (SFile.mk "x" (List.replicate LARGE_FILE_THRESHOLD 0)).content
        true =
      hash_file
        (SFile.mk "y" (List.replicate LARGE_FILE_THRESHOLD 0)).content
        true ∧
    ∀ f, f ∉ rehashedFiles
      [⟨"x", List.replicate LARGE_FILE_THRESHOLD 0⟩,
       ⟨"y", List.replicate LARGE_FILE_THRESHOLD 0⟩] := by
  have hT : LARGE_FILE_THRESHOLD = 104857600 := rfl
  have hP : PARTIAL_HASH_SIZE = 1048576 := rfl
  have hlen : (List.replicate LARGE_FILE_THRESHOLD (0 : Nat)).length =
      LARGE_FILE_THRESHOLD := List.length_replicate ..
  refine ⟨hash_file_small _ (by rw [hlen]), ?_, hlen, rfl, ?_⟩
  · rw [hash_file_small _ (by rw [hlen])]
    intro h
    have h2 := congrArg List.length h
    rw [sha256, sha256, List.length_append, List.length_take,
      List.length_drop, hlen] at h2
    omega
  · intro f hf
    rcases (rehashed_mem_iff _ f).1 hf with ⟨p, hp, -, hlen1, hbig⟩
    have hf0 : p.2.headI ∈ p.2 := headI_mem_of_one_lt p.2 hlen1
    have hfth := (groupByKey_pair_sound (fun f => hash_file f.content true)
      _ p hp p.2.headI hf0).2
    have hw := filesToHash_sub _ p.2.headI hfth
    have hmem := walkFiles_sub _ p.2.headI hw
    rcases List.mem_cons.1 hmem with h1 | hmem2
    · rw [h1] at hbig
      simp only [hlen] at hbig
      omega
    · have h1 := List.mem_singleton.1 hmem2
      rw [h1] at hbig
      simp only [hlen] at hbig
      omega

/-- **C5.** (amended) Two-phase hashing as the code implements it: a
candidate strictly larger than the 100 MiB threshold is partially
hashed (digest over its first 1 MiB concatenated with its last 1 MiB
only), a candidate of at most the threshold size — including exactly
100 MiB — gets a full digest; full re-hashing is performed exactly
for the files lying in a partial-digest group of at least two members
whose first member is strictly larger than the threshold; and every
re-hashed file ends up in a `final_hashes` group whose key is its full
digest. -/
theorem c5_two_phase_hashing_amended :
    (∀ c : List Nat, hash_file c false = sha256 c) ∧
    (∀ c : List Nat, c.length ≤ LARGE_FILE_THRESHOLD →
        hash_file c true = sha256 c) ∧
    (∀ c : List Nat, LARGE_FILE_THRESHOLD < c.length →
        hash_file c true = sha256 (c.take PARTIAL_HASH_SIZE ++
          c.drop (c.length - PARTIAL_HASH_SIZE))) ∧
    (∀ (files : List SFile) (f : SFile),
        f ∈ rehashedFiles files ↔
          ∃ p ∈ partialGroups files, f ∈ p.2 ∧ 1 < p.2.length ∧
            LARGE_FILE_THRESHOLD < p.2.headI.content.length) ∧
    (∀ (files : List SFile) (f : SFile),
        f ∈ rehashedFiles files →
          ∃ g ∈ finalHashes files,
            g.1 = hash_file f.content false ∧ f ∈ g.2) :=
  ⟨hash_file_full, hash_file_small, hash_file_large, rehashed_mem_iff,
   rehashed_full_key⟩

/-- Witness for C5 (amended) at concrete inputs: a one-byte content is
below the threshold and fully hashed; and in the two-copy tree `wtree`
of a content one byte over the threshold, `x.bin` is re-hashed and
lands in a final group keyed by its full digest. -/
theorem c5_two_phase_hashing_amended_witness :
    (([1] : List Nat).length ≤ LARGE_FILE_THRESHOLD ∧
      hash_file [1] true = sha256 [1]) ∧
    (SFile.mk "x.bin" wbig ∈ rehashedFiles wtree ∧
      ∃ g ∈ finalHashes wtree,
        g.1 = hash_file (SFile.mk "x.bin" wbig).content false ∧
        SFile.mk "x.bin" wbig ∈ g.2) := by
  have hT : LARGE_FILE_THRESHOLD = 104857600 := rfl
  have hP : PARTIAL_HASH_SIZE = 1048576 := rfl
  have hlen : wbig.length = 104857601 := by
    rw [wbig, List.length_replicate, hT]
  have hwalk : walkFiles wtree = wtree := rfl
  have hsz : sizeGroups wtree =
      [(104857601, [⟨"x.bin", wbig⟩, ⟨"y.bin", wbig⟩])] := by
    show groupByKey (fun f => f.content.length) (walkFiles wtree) = _
    rw [hwalk, groupByKey, wtree]
    have k1 : (SFile.mk "x.bin" wbig).content.length = 104857601 := hlen
    have k2 : (SFile.mk "y.bin" wbig).content.length = 104857601 := hlen
    simp only [List.foldl_cons, List.foldl_nil, k1, k2]
    simp [insertGrp]
  have hfth : filesToHash wtree = wtree := by
    show (((sizeGroups wtree).filter (fun g => 1 < g.2.length)).map
      (fun g => g.2)).flatten = wtree
    rw [hsz, wtree]
    rfl
  have hpw : hash_file wbig true = cexWindow := by
    rw [hash_file_large _ (by omega), sha256_id, hlen, wbig, hT, hP,
      List.take_replicate, List.drop_replicate, cexWindow, hP,
      ← List.replicate_add]
    norm_num
  have hpart : partialGroups wtree =
      [(cexWindow, [⟨"x.bin", wbig⟩, ⟨"y.bin", wbig⟩])] := by
    show groupByKey (fun f => hash_file f.content true)
      (filesToHash wtree) = _
    rw [hfth, groupByKey, wtree]
    rw [List.foldl_cons, List.foldl_cons, List.foldl_nil]
    rw [hpw]
    rw [show insertGrp ([] : List (List Nat × List SFile)) cexWindow
        (SFile.mk "x.bin" wbig) =
        [(cexWindow, [SFile.mk "x.bin" wbig])] from rfl]
    rw [insertGrp, if_pos rfl]
    rfl
  have hmem : SFile.mk "x.bin" wbig ∈ rehashedFiles wtree := by
    refine (rehashed_mem_iff wtree (SFile.mk "x.bin" wbig)).2
      ⟨(cexWindow, [⟨"x.bin", wbig⟩, ⟨"y.bin", wbig⟩]), ?_, ?_, ?_, ?_⟩
    · rw [hpart]
      exact List.mem_cons_self ..
    · exact List.mem_cons_self ..
    · show 1 < ([⟨"x.bin", wbig⟩, ⟨"y.bin", wbig⟩] : List SFile).length
      simp
    · show LARGE_FILE_THRESHOLD <
        ([⟨"x.bin", wbig⟩, ⟨"y.bin", wbig⟩] :
          List SFile).headI.content.length
      simp only [List.headI_cons]
      show LARGE_FILE_THRESHOLD < wbig.length
      omega
  exact ⟨⟨by decide, c5_two_phase_hashing_amended.2.1 [1] (by decide)⟩,
    hmem, c5_two_phase_hashing_amended.2.2.2.2 wtree
      (SFile.mk "x.bin" wbig) hmem⟩

/-- Witness for C10 at a concrete input: a corrupt manifest file. -/
theorem c10_manifest_load_never_fails_witness :
    readManifest .corrupt = .error "unreadable or invalid JSON" ∧
    load_trash_manifest .corrupt = [] ∧
    get_trash_info true .corrupt = (0, 0) :=
  ⟨rfl,
   c10_manifest_load_never_fails.2.1 .corrupt "unreadable or invalid JSON"
     rfl,
   c10_manifest_load_never_fails.2.2.1 true⟩

end HomeDrive
